import Mathlib

/-!
Verification of the kane::vector dynamic-array container (KaneLib).

The C++ storage is modelled at slot level: a heap allocation is a list of
option slots (`none` = uninitialised memory), and the `vector_base` cursor
triple `(m_data, m_size, m_capacity)` becomes a slot list (whose length is
the capacity of the allocation) together with a size field (the offset
`m_size - m_data`).  Placement construction and assignment both write a
value into a slot; on this value-level model the two operations coincide,
so loops of the source that differ only in their construct/assign split
(chosen via `value_has_trivial_destroy`) are translated as a single loop
performing the same sequence of slot writes.
-/

namespace KaneVector

variable {α : Type}

/-- A heap allocation: a list of element slots, `none` meaning uninitialised
memory.  The length of the list is the capacity of the allocation. -/
abbrev Slots (α : Type) := List (Option α)

/-- Dereference the slot at offset `i` of an allocation (reading `*(p + i)`).
Out-of-range reads return `none`. -/
def read : Slots α → Nat → Option α
  | [], _ => none
  | o :: _, 0 => o
  | _ :: a, n + 1 => read a n

/-- Allocator model: `allocate(n)` returns `n` uninitialised slots. -/
def allocate (α : Type) (n : Nat) : Slots α := List.replicate n none

/-!
Loop primitives of ArrayContainerBase.h and VectorDetails.inl.
On the value level, placement construction and assignment of a slot coincide,
so each family of source loops that differ only in the construct/assign choice
is translated as one Lean function performing the identical slot writes.
-/
/-- Iterations of the range-copy loop between two distinct allocations:
each step writes the destination slot `d` from the source slot `s` and
advances both cursors.  The loop of the source runs until the source cursor
reaches the end of its range, i.e. exactly `e - s` times; the iteration
count is the recursion measure. -/
def blitGo (dst : Slots α) (d : Nat) (src : Slots α) (s : Nat) : Nat → Slots α × Nat
  | 0 => (dst, d)
  | k + 1 => blitGo (dst.set d (read src s)) (d + 1) src (s + 1) k

/-- Copy slots `[s, e)` of a source allocation to consecutive destination
slots starting at `d` of a distinct allocation.  This is the loop of
`copy_construct_from_range` / `move_construct_from_range` /
`copy_assign_from_range` / `move_assign_from_range` (ArrayContainerBase.h)
for the case where source and destination allocations are different; the
second component is the final destination cursor (the C++ return value
`first1`). -/
def blit (dst : Slots α) (d : Nat) (src : Slots α) (s e : Nat) : Slots α × Nat :=
  blitGo dst d src s (e - s)

/-- Iterations of the same copy loop in the aliased case, where source and
destination ranges live in one allocation: each step reads the slot as it is
at that moment. -/
def blitSelfGo (a : Slots α) (d s : Nat) : Nat → Slots α × Nat
  | 0 => (a, d)
  | k + 1 => blitSelfGo (a.set d (read a s)) (d + 1) (s + 1) k

/-- Copy slots `[s, e)` of an allocation to consecutive slots of the same
allocation starting at `d`: the loops of `blit` in the aliased case (for
example `move_assign_from_range(first, last, iend())` inside
`erase_internal`). -/
def blitSelf (a : Slots α) (d s e : Nat) : Slots α × Nat :=
  blitSelfGo a d s (e - s)

/-- Iterations of the backward shift loop shared by `move_forward_1` and
`move_forward_n` (VectorDetails.inl): for a cursor descending from the live
end to `p + 1`, write slot `src - 1 + n` from slot `src - 1`.  The source
splits these writes between move-construction and move-assignment (depending
on `value_has_trivial_destroy` and on overlap); the slot writes are identical
in every branch.  The loop runs once per element of `[p, src)`, and that
iteration count is the recursion measure: at fuel `k + 1` the cursor is at
`p + k + 1`. -/
def move_loopGo (a : Slots α) (p n : Nat) : Nat → Slots α
  | 0 => a
  | k + 1 => move_loopGo (a.set (p + k + n) (read a (p + k))) p n k

/-- The backward shift loop, entered with the cursor at `src`. -/
def move_loop (a : Slots α) (p n src : Nat) : Slots α :=
  move_loopGo a p n (src - p)

/-- Checked fill loop: copy-construct values from the head of an input
sequence into slots `[lo, hi)` until either the slots or the input run out.
This is `checked_copy_construct_range` (ArrayContainerBase.h) with a pure
value list standing for the single-pass input sequence; the return value is
the final destination cursor together with the unconsumed rest of the input
(the C++ pair `(first1, first2)`). -/
def fill (a : Slots α) (lo hi : Nat) : List α → Slots α × Nat × List α
  | [] => (a, lo, [])
  | x :: xs => if lo < hi then fill (a.set lo (some x)) (lo + 1) hi xs else (a, lo, x :: xs)

/-- Unchecked copy of a whole value sequence into consecutive slots: the loop
of `copy_construct_from_range` / `copy_assign_from_range` with a pure value
list as the source range. -/
def writeList (a : Slots α) (i : Nat) : List α → Slots α
  | [] => a
  | x :: xs => writeList (a.set i (some x)) (i + 1) xs

/-- In-bounds iterations of the `construct_n` loop.  The exemplar is carried
as a slot value so that a caller can pass a dereferenced slot directly. -/
def construct_n_go (a : Slots α) (i : Nat) (x : Option α) : Nat → Slots α
  | 0 => a
  | m + 1 => construct_n_go (a.set i x) (i + 1) x m

/-- The loop of `construct_n(first, n, val)` (ArrayContainerBase.h line 173):
write `n` copies of an exemplar value into consecutive slots (also standing
for construct_range / assign_range / assign_n, which perform the same slot
writes).  Iterations beyond the end of the allocation are undefined behaviour
in C++ (out-of-bounds placement construction) and are dropped here so that
the model stays total even for the pathological `n = 2^64 - 1` produced by a
`size_type` underflow; the C++ return value `first + n` is accounted for
separately by the callers. -/
def construct_n (a : Slots α) (i n : Nat) (x : Option α) : Slots α :=
  construct_n_go a i x (min n (a.length - i))

/-!
The vector state.
`vector_base` stores the cursor triple `(m_data, m_size, m_capacity)`; here
the allocation `[m_data, m_capacity)` is the slot list `data` (so the
capacity is `data.length`) and the live cursor offset `m_size - m_data` is
`size`.  `kane::vector` adds no data members of its own.
-/
structure Vec (α : Type) where
  data : Slots α
  size : Nat
deriving DecidableEq

namespace Vec

/-- capacity() = m_capacity - m_data (VectorDetails.inl line 139). -/
def capacity (v : Vec α) : Nat := v.data.length

/-- available() = m_capacity - m_size (VectorDetails.inl line 142). -/
def available (v : Vec α) : Nat := v.capacity - v.size

/-- empty() tests m_data == m_size (VectorDetails.inl line 145), i.e. whether
the live-cursor offset is zero. -/
def empty (v : Vec α) : Bool := v.size == 0

/-- full() tests m_size == m_capacity (VectorDetails.inl line 148). -/
def full (v : Vec α) : Bool := v.size == v.capacity

end Vec

/-- The vector currently holds exactly the element sequence `l`: its live
slots spell `l` and the live range lies inside the allocation. -/
def Rep (v : Vec α) (l : List α) : Prop :=
  v.size ≤ v.capacity ∧ v.data.take v.size = l.map some

instance {v : Vec α} {l : List α} [DecidableEq α] : Decidable (Rep v l) := by
  unfold Rep
  infer_instance

/-- Build a vector holding the sequence `l` with `extra` spare slots. -/
def mkVec (l : List α) (extra : Nat) : Vec α :=
  ⟨l.map some ++ List.replicate extra none, l.length⟩

namespace Vec

/-!  Growth policy and reallocation (VectorDetails.inl). -/
/-- next_capacity(sz) (VectorDetails.inl line 221): `sz ? (sz * 2) : 2`. -/
def next_capacity (sz : Nat) : Nat := if sz ≠ 0 then sz * 2 else 2

/-- Member next_capacity() (VectorDetails.inl line 215): next capacity from
the current capacity. -/
def next_capacity0 (v : Vec α) : Nat := next_capacity v.capacity

/-- best_capacity(needed) (VectorDetails.inl line 232):
`std::max(needed, next_capacity())`. -/
def best_capacity (v : Vec α) (needed : Nat) : Nat := max needed v.next_capacity0

/-- really_reallocate (VectorDetails.inl line 253): allocate a new array,
move-construct the live elements across, destroy and deallocate the old
array, adopt the new cursors.  The `if(m_data)` test of the source only
skips the move and deallocation for a null array, which holds no live
elements, so the slot effect is the same. -/
def really_reallocate (v : Vec α) (newCapacity : Nat) : Vec α :=
  let r := blit (allocate α newCapacity) 0 v.data 0 v.size
  ⟨r.fst, r.snd⟩

/-- reallocate() (VectorDetails.inl line 238). -/
def reallocate_next (v : Vec α) : Vec α := v.really_reallocate v.next_capacity0

/-- reallocate(newCapacity) (VectorDetails.inl line 242): grow only. -/
def reallocate (v : Vec α) (newCapacity : Nat) : Vec α :=
  if newCapacity > v.capacity then v.really_reallocate newCapacity else v

/-- reserve (Vector.inl line 371): forwards to reallocate. -/
def reserve (v : Vec α) (neededSize : Nat) : Vec α := v.reallocate neededSize

/-!  Gap creation (VectorDetails.inl). -/
/-- move_forward_1(position) (VectorDetails.inl line 284): shift
`[position, iend())` forward one slot, working backward from the live end,
and advance the live cursor.  The construct/assign split on
`value_has_trivial_destroy` performs identical slot writes. -/
def move_forward_1 (v : Vec α) (p : Nat) : Vec α :=
  ⟨move_loop v.data p 1 v.size, v.size + 1⟩

/-- move_forward_n(position, sz) (VectorDetails.inl line 320): shift
`[position, iend())` forward `sz` slots, working backward, and advance the
live cursor.  The second component is the source's return value, one past
the end of the initialised part of the gap: `position + sz` in the
overlapped case and the old live end otherwise (the trivially-destructible
branch returns `position + sz` but performs the same writes and its callers
use the value only to choose between construction and assignment, which
coincide here). -/
def move_forward_n (v : Vec α) (p n : Nat) : Vec α × Nat :=
  (⟨move_loop v.data p n v.size, v.size + n⟩,
    if p + n < v.size then p + n else v.size)

/-- make_gap_1(position) (VectorDetails.inl line 380): on a full vector,
allocate the next capacity and move the elements across leaving one free
slot at `position`; otherwise shift the suffix forward in place.  Returns
the updated vector and the slot offset of the gap. -/
def make_gap_1 (v : Vec α) (p : Nat) : Vec α × Nat :=
  if v.size = v.capacity then
    let newCapacity := next_capacity v.capacity
    let r1 := blit (allocate α newCapacity) 0 v.data 0 p
    let r2 := blit r1.fst (r1.snd + 1) v.data p v.size
    (⟨r2.fst, r2.snd⟩, r1.snd)
  else
    (v.move_forward_1 p, p)

/-- make_gap_n(position, sz) (VectorDetails.inl line 403): as make_gap_1 but
for a gap of `sz` slots; note that the reallocating branch sizes the new
buffer with `next_capacity(size() + sz)`, not `best_capacity`.  Returns the
updated vector, the start of the gap, and the start of its uninitialised
part (the C++ pair). -/
def make_gap_n (v : Vec α) (p n : Nat) : Vec α × Nat × Nat :=
  if v.size + n > v.capacity then
    let newCapacity := next_capacity (v.size + n)
    let r1 := blit (allocate α newCapacity) 0 v.data 0 p
    let r2 := blit r1.fst (r1.snd + n) v.data p v.size
    (⟨r2.fst, r2.snd⟩, r1.snd, r1.snd)
  else
    let r := v.move_forward_n p n
    (r.fst, p, r.snd)

/-!  Erase and truncation (Vector.inl). -/
/-- truncate_internal(last) (Vector.inl line 1222): destroy `[last, iend())`
and pull the live cursor back.  Destruction does not change slot values in
the model. -/
def truncate_internal (v : Vec α) (last : Nat) : Vec α := ⟨v.data, last⟩

/-- erase_internal(first, last) (Vector.inl line 1214): move-assign the tail
over the erased range, then truncate at the returned cursor. -/
def erase_internal (v : Vec α) (f l : Nat) : Vec α :=
  let r := blitSelf v.data f l v.size
  truncate_internal ⟨r.fst, v.size⟩ r.snd

/-- erase(first, last) (Vector.inl line 707): empty range is a no-op,
erasing through the end is a pure truncation, otherwise erase_internal. -/
def erase (v : Vec α) (f l : Nat) : Vec α :=
  if f = l then v
  else if l = v.size then v.truncate_internal f
  else v.erase_internal f l

/-- clear() (Vector.inl line 736). -/
def clear (v : Vec α) : Vec α := v.truncate_internal 0

/-- pop_back() (Vector.inl line 499): `if(!empty()) { --m_size; destroy(iend()); }`. -/
def pop_back (v : Vec α) : Vec α :=
  if v.empty = true then v else ⟨v.data, v.size - 1⟩

/-!  Appending (Vector.inl). -/
/-- emplace_back_internal(args...) (Vector.inl line 1640), with the value of
the new element already computed.  The `simple` flag is
`kane::use_simple_insert<T>` (Vector.h line 64; `std::true_type` for every
type unless specialised by the user). -/
def emplace_back_internal (simple : Bool) (v : Vec α) (x : α) : Vec α :=
  if v.size ≠ v.capacity then
    ⟨v.data.set v.size (some x), v.size + 1⟩
  else if simple then
    let temp := x
    let v1 := v.reallocate_next
    ⟨v1.data.set v1.size (some temp), v1.size + 1⟩
  else
    let nd := (allocate α v.next_capacity0).set v.size (some x)
    let r := blit nd 0 v.data 0 v.size
    ⟨r.fst, v.size + 1⟩

/-- push_back(value) (Vector.inl line 493). -/
def push_back (simple : Bool) (v : Vec α) (x : α) : Vec α :=
  v.emplace_back_internal simple x

end Vec

/-!
Relational operators (Vector.inl lines 1774-1820, Algorithms.h).
The operators read only the two vectors' sizes and live elements, so they
are modelled as functions of the two element sequences.
-/
/-- unchecked_lexicographical_compare(first1, last1, first2) (Algorithms.h
line 9): strict lexicographic comparison driven by the first range; the
source assumes the second range holds at least as many elements (the
callers only pass equal sizes); a shorter second list simply stops the walk
here, standing for the out-of-range reads the C++ would otherwise make. -/
def unchecked_lexicographical_compare [LT α] [DecidableRel ((· < ·) : α → α → Prop)] :
    List α → List α → Bool
  | [], _ => false
  | _ :: _, [] => false
  | x :: xs, y :: ys =>
    if x < y then true
    else if y < x then false
    else unchecked_lexicographical_compare xs ys

/-- The loop of std::equal(ibegin(), iend(), rhs.ibegin()) as used by
operator== / operator!=; driven by the first range, called with equal
sizes. -/
def range_equal [DecidableEq α] : List α → List α → Bool
  | [], _ => true
  | _ :: _, [] => false
  | x :: xs, y :: ys => x == y && range_equal xs ys

/-- operator== (Vector.inl line 1776): size comparison then pairwise element
equality. -/
def vector_eq [DecidableEq α] (a b : List α) : Bool :=
  a.length == b.length && range_equal a b

/-- operator!= (Vector.inl line 1782). -/
def vector_ne [DecidableEq α] (a b : List α) : Bool :=
  !(a.length == b.length) || !(range_equal a b)

/-- operator< (Vector.inl line 1788): size-first, then lexicographic by
elements. -/
def vector_lt [LT α] [DecidableRel ((· < ·) : α → α → Prop)] (a b : List α) : Bool :=
  if a.length < b.length then true
  else if a.length = b.length then unchecked_lexicographical_compare a b
  else false

/-- operator<= (Vector.inl line 1800): size-first, then the negated reverse
lexicographic comparison. -/
def vector_le [LT α] [DecidableRel ((· < ·) : α → α → Prop)] (a b : List α) : Bool :=
  if a.length < b.length then true
  else if a.length = b.length then !(unchecked_lexicographical_compare b a)
  else false

/-- operator> (Vector.inl line 1812): the source computes `!(rhs <= *this)`. -/
def vector_gt [LT α] [DecidableRel ((· < ·) : α → α → Prop)] (a b : List α) : Bool :=
  !(vector_le b a)

/-- operator>= (Vector.inl line 1818): the source computes `!(rhs < *this)`. -/
def vector_ge [LT α] [DecidableRel ((· < ·) : α → α → Prop)] (a b : List α) : Bool :=
  !(vector_lt b a)

/-!
insert(position, count, value) (Vector.inl lines 541-548, 1677-1772).
`count` is a `size_type`; every arithmetic operation on it is modulo 2^64.
-/
/-- One word of the unsigned 64-bit size_type. -/
def WSIZE : Nat := 2 ^ 64

namespace Vec

/-- The full-and-simple branch tail of emplace_back_n_internal (Vector.inl
lines 1741-1750): after reallocating, copy-construct `count` elements from
the temporary exemplar at the end and advance the live cursor. -/
def emplace_back_n_fill2 (v2 : Vec α) (count : Nat) (x : α) : Vec α :=
  ⟨construct_n v2.data v2.size count (some x), v2.size + count⟩

/-- The tail of the non-full branch of emplace_back_n_internal (Vector.inl
lines 1736-1737): `position = iend() - 1;` then
`iend(construct_n(iend(), count, *position))`, i.e. copy-construct `count1`
further elements from the exemplar slot just emplaced and advance the live
cursor by `count1` (the C++ pointer `construct_n` returns is `first + n`
regardless of where the allocation ends). -/
def emplace_back_n_fill (v2 : Vec α) (count1 : Nat) : Vec α :=
  ⟨construct_n v2.data v2.size count1 (read v2.data (v2.size - 1)), v2.size + count1⟩

/-- The non-full branch of emplace_back_n_internal after the exemplar has
been emplaced (Vector.inl lines 1732-1739): `if(many(--count))
reallocate(best_capacity(size() + count));` then the fill above; `count1` is
the already-decremented count and all size_type sums wrap modulo 2^64. -/
def emplace_back_n_notfull (v1 : Vec α) (count1 : Nat) : Vec α :=
  if (v1.size + count1) % WSIZE > v1.capacity then
    emplace_back_n_fill (v1.reallocate (v1.best_capacity ((v1.size + count1) % WSIZE))) count1
  else
    emplace_back_n_fill v1 count1

/-- emplace_back_n_internal(count, args...) (Vector.inl line 1729).  In the
non-full branch the source first emplaces the exemplar element at the end
and then runs the decremented fill — for count = 0 the unsigned `--count`
wraps to 2^64 - 1.  On a full vector the simple path copies the exemplar,
reallocates to best_capacity(size + count) and constructs `count` copies;
the complex path constructs exemplar and copies directly into a fresh
buffer and moves the old elements below them. -/
def emplace_back_n_internal (simple : Bool) (v : Vec α) (count : Nat) (x : α) : Vec α :=
  if v.size ≠ v.capacity then
    emplace_back_n_notfull (v.emplace_back_internal simple x) ((count + (WSIZE - 1)) % WSIZE)
  else if simple then
    emplace_back_n_fill2 (v.reallocate (v.best_capacity ((v.size + count) % WSIZE))) count x
  else
    ⟨(blit (construct_n ((allocate α (v.best_capacity ((v.size + count) % WSIZE))).set
          v.size (some x)) (v.size + 1) ((count + (WSIZE - 1)) % WSIZE)
        (read ((allocate α (v.best_capacity ((v.size + count) % WSIZE))).set
          v.size (some x)) v.size)) 0 v.data 0 v.size).fst,
      v.size + 1 + ((count + (WSIZE - 1)) % WSIZE)⟩

/-- emplace_n_internal(position, count, args...) (Vector.inl line 1679): the
few(count) test selects the in-place path through make_gap_n (whose count
argument is missing in the source text at line 1687, an evident slip for
make_gap_n(position, count)); the gap is then filled from the temporary,
split between construction and assignment, which coincide here.  Otherwise a
fresh buffer of best_capacity(size + count) is filled directly: exemplar,
count - 1 copies of it, then the old prefix and suffix moved around them.
All size_type arithmetic on count is modulo 2^64. -/
def emplace_n_internal (simple : Bool) (v : Vec α) (pos count : Nat) (x : α) : Vec α :=
  if simple = true ∨ (v.size + count) % WSIZE ≤ v.capacity then
    ⟨construct_n (v.make_gap_n pos count).fst.data (v.make_gap_n pos count).snd.fst
      count (some x), (v.make_gap_n pos count).fst.size⟩
  else
    ⟨(blit (blit (construct_n ((allocate α (v.best_capacity ((v.size + count) % WSIZE))).set
            pos (some x)) (pos + 1) ((count + (WSIZE - 1)) % WSIZE)
          (read ((allocate α (v.best_capacity ((v.size + count) % WSIZE))).set
            pos (some x)) pos)) 0 v.data 0 pos).fst
        (pos + count) v.data pos v.size).fst,
      (blit (blit (construct_n ((allocate α (v.best_capacity ((v.size + count) % WSIZE))).set
            pos (some x)) (pos + 1) ((count + (WSIZE - 1)) % WSIZE)
          (read ((allocate α (v.best_capacity ((v.size + count) % WSIZE))).set
            pos (some x)) pos)) 0 v.data 0 pos).fst
        (pos + count) v.data pos v.size).snd⟩

/-- insert(pos, count, val) (Vector.inl line 542): dispatch on pos == end(). -/
def insert_n (simple : Bool) (v : Vec α) (pos count : Nat) (x : α) : Vec α :=
  if pos = v.size then v.emplace_back_n_internal simple count x
  else v.emplace_n_internal simple pos count x

/-!
Self-aliasing single-element insert (Vector.inl lines 520-539, 1598-1636).
The inserted argument is a reference into the vector itself, modelled as the
slot offset `i`; each place where the source reads the argument becomes a
`read` of the allocation that is current at that moment.
-/
/-- emplace_back_internal(args...) (Vector.inl line 1640) with the argument a
reference to the vector's own element at offset `i`: the non-full branch
constructs directly from it; the full simple branch copies it into a
temporary before reallocating; the full complex branch constructs from it
into the fresh buffer before the old elements are moved across. -/
def emplace_back_internal_ref (simple : Bool) (v : Vec α) (i : Nat) : Vec α :=
  if v.size ≠ v.capacity then
    ⟨v.data.set v.size (read v.data i), v.size + 1⟩
  else if simple then
    let temp := read v.data i
    let v1 := v.reallocate_next
    ⟨v1.data.set v1.size temp, v1.size + 1⟩
  else
    let nd := (allocate α v.next_capacity0).set v.size (read v.data i)
    let r := blit nd 0 v.data 0 v.size
    ⟨r.fst, v.size + 1⟩

/-- emplace_internal(position, args...) (Vector.inl line 1600) with the
argument a reference into the vector, at slot offset `i`.  The simple path
(use_simple_insert or not full) captures the value in a temporary before
make_gap_1 shifts or reallocates anything; the complex path constructs it
into the new buffer straight from the old allocation before the moves. -/
def emplace_internal_ref (simple : Bool) (v : Vec α) (pos i : Nat) : Vec α :=
  if simple = true ∨ v.size ≠ v.capacity then
    ⟨(v.make_gap_1 pos).fst.data.set (v.make_gap_1 pos).snd (read v.data i),
      (v.make_gap_1 pos).fst.size⟩
  else
    ⟨(blit (blit ((allocate α v.next_capacity0).set pos (read v.data i)) 0 v.data 0 pos).fst
        (pos + 1) v.data pos v.size).fst,
      (blit (blit ((allocate α v.next_capacity0).set pos (read v.data i)) 0 v.data 0 pos).fst
        (pos + 1) v.data pos v.size).snd⟩

/-- insert(pos, const_reference val) (Vector.inl line 521) with val a
reference to the vector's own element at offset `i`: dispatch on
pos == end(). -/
def insert_ref (simple : Bool) (v : Vec α) (pos i : Nat) : Vec α :=
  if pos = v.size then v.emplace_back_internal_ref simple i
  else v.emplace_internal_ref simple pos i

/-!
Forward-iterator range insertion (Vector.inl lines 1149-1207, 1358-1414).
-/
/-- insert_range(position, first, last, forward_iterator_tag) (Vector.inl
line 1361), with the multi-pass range given as the value list `xs` (so
`count = std::distance(first, last) = xs.length`).  Within capacity, the
suffix is shifted with move_forward_n and the new elements are written over
`[position, position + count)` (the trivially-destructible branch
copy-constructs the whole range, the other splits it at the returned cursor
into copy-assignment and copy-construction: the same slot writes).
Otherwise a buffer of best_capacity(size + count) receives prefix, new
elements, and suffix in order. -/
def insert_range_fwd (v : Vec α) (pos : Nat) (xs : List α) : Vec α :=
  if v.size + xs.length ≤ v.capacity then
    ⟨writeList (v.move_forward_n pos xs.length).fst.data pos xs,
      (v.move_forward_n pos xs.length).fst.size⟩
  else
    ⟨(blit (writeList (blit (allocate α (v.best_capacity (v.size + xs.length)))
        0 v.data 0 pos).fst pos xs) (pos + xs.length) v.data pos v.size).fst,
      (blit (writeList (blit (allocate α (v.best_capacity (v.size + xs.length)))
        0 v.data 0 pos).fst pos xs) (pos + xs.length) v.data pos v.size).snd⟩

/-- append_range(first, last, forward_iterator_tag) (Vector.inl line 1184):
reserve room for the counted range, then copy-construct it at the end. -/
def append_range_fwd (v : Vec α) (xs : List α) : Vec α :=
  ⟨writeList (v.reserve (v.size + xs.length)).data (v.reserve (v.size + xs.length)).size xs,
    (v.reserve (v.size + xs.length)).size + xs.length⟩

/-- insert(pos, first, last) (Vector.inl line 553) for a multi-pass range:
dispatch on pos == end() between append_range and insert_range. -/
def insert_list (v : Vec α) (pos : Nat) (xs : List α) : Vec α :=
  if pos = v.size then v.append_range_fwd xs else v.insert_range_fwd pos xs

/-!
replace (Vector.inl lines 947-970, 1518-1578) for a multi-pass replacement
range, given as the value list `xs` (count = std::distance = xs.length).
-/
/-- do_replace_range(first, last, first2, last2, forward_iterator_tag)
(Vector.inl line 1520).  With count <= rangeSize the new elements are
copy-assigned over the front of the replaced range and the leftover is
erased; with a fit the suffix is shifted by insertSize and the new elements
written over `[first, first + count)` (copy-assignment up to the returned
cursor, copy-construction beyond: the same slot writes); otherwise a buffer
of best_capacity(size + insertSize) receives prefix, new elements, and the
suffix from `last` in order. -/
def do_replace_range_fwd (v : Vec α) (f l : Nat) (xs : List α) : Vec α :=
  if xs.length ≤ l - f then
    Vec.erase_internal ⟨writeList v.data f xs, v.size⟩ (f + xs.length) l
  else if v.size + (xs.length - (l - f)) ≤ v.capacity then
    ⟨writeList (v.move_forward_n l (xs.length - (l - f))).fst.data f xs,
      (v.move_forward_n l (xs.length - (l - f))).fst.size⟩
  else
    ⟨(blit (writeList (blit (allocate α (v.best_capacity (v.size + (xs.length - (l - f)))))
        0 v.data 0 f).fst f xs) (f + xs.length) v.data l v.size).fst,
      (blit (writeList (blit (allocate α (v.best_capacity (v.size + (xs.length - (l - f)))))
        0 v.data 0 f).fst f xs) (f + xs.length) v.data l v.size).snd⟩

/-- replace(first0, last0, first2, last2) (Vector.inl line 949): an empty
replaced range reduces to an insert (or nothing), an empty replacement
range to an erase, and otherwise do_replace_range runs. -/
def replace (v : Vec α) (f l : Nat) (xs : List α) : Vec α :=
  if f = l then
    (if xs.isEmpty = false then v.insert_range_fwd f xs else v)
  else if xs.isEmpty = true then
    v.erase_internal f l
  else
    v.do_replace_range_fwd f l xs

end Vec

/-!
The reachable states of the vector (C8).
A state is reachable when some sequence of public operations produces it
from a newly constructed vector (default construction allocates nothing:
`vector_base()` zero-initialises the three cursors, VectorDetails.inl line
24).  Each transition is one public member as modelled above, with the
`use_simple_insert` dispatch constant `true` as in Vector.h line 64, and
carries the operation's preconditions: positions and erased ranges must be
valid, and counted insertion takes a nonzero count that keeps the size
below 2^64 (a zero count trips the unsigned-underflow defect recorded with
C10 and runs off the allocation, so the source gives such a call no
defined post-state).  `ReachableRep` tracks alongside the state the element
sequence that produced it.
-/
inductive ReachableRep : Vec α → List α → Prop where
  | nil : ReachableRep ⟨[], 0⟩ []
  | push_back {v : Vec α} {L : List α} (x : α) (h : ReachableRep v L) :
      ReachableRep (v.push_back true x) (L ++ [x])
  | pop_back {v : Vec α} {L : List α} (h : ReachableRep v L) :
      ReachableRep v.pop_back (L.take (L.length - 1))
  | clear {v : Vec α} {L : List α} (h : ReachableRep v L) :
      ReachableRep v.clear []
  | reserve {v : Vec α} {L : List α} (n : Nat) (h : ReachableRep v L) :
      ReachableRep (v.reserve n) L
  | erase {v : Vec α} {L : List α} (f l : Nat) (h : ReachableRep v L)
      (hf : f ≤ l) (hl : l ≤ v.size) :
      ReachableRep (v.erase f l) (L.take f ++ L.drop l)
  | insert_ref {v : Vec α} {L : List α} (pos i : Nat) {x : α}
      (h : ReachableRep v L) (hx : L[i]? = some x) (hpos : pos ≤ v.size) :
      ReachableRep (v.insert_ref true pos i) (L.take pos ++ x :: L.drop pos)
  | insert_list {v : Vec α} {L : List α} (pos : Nat) (s : List α)
      (h : ReachableRep v L) (hpos : pos ≤ v.size) :
      ReachableRep (v.insert_list pos s) (L.take pos ++ s ++ L.drop pos)
  | insert_n {v : Vec α} {L : List α} (pos count : Nat) (x : α)
      (h : ReachableRep v L) (hpos : pos ≤ v.size) (hc : 1 ≤ count)
      (hw : v.size + count < WSIZE) :
      ReachableRep (v.insert_n true pos count x)
        (L.take pos ++ List.replicate count x ++ L.drop pos)
  | replace {v : Vec α} {L : List α} (f l : Nat) (s : List α)
      (h : ReachableRep v L) (hf : f ≤ l) (hl : l ≤ v.size) :
      ReachableRep (v.replace f l s) (L.take f ++ s ++ L.drop l)

/-- A state reachable by some sequence of public operations. -/
def Reachable (v : Vec α) : Prop := ∃ L, ReachableRep v L

namespace Vec

/-!
Single-pass (input-iterator) insertion: insert_horrible (VectorDetails.inl
lines 469-656) and insert_range(position, first, last, input_iterator_tag)
(Vector.inl lines 1233-1356).  The single-pass source is given as the value
list `xs`; consuming the iterator is taking elements off the front.
-/
/-- The capacity-chase loop `while(nextCapacity < currentSize) nextCapacity =
next_capacity(nextCapacity)` (as in VectorDetails.inl lines 519-524 and 586-
588), with explicit fuel; every iteration at least doubles a positive
capacity, so fuel `s` always suffices. -/
def grow_whileGo (s : Nat) : Nat → Nat → Nat
  | 0, c => c
  | fuel + 1, c => if c < s then grow_whileGo s fuel (next_capacity c) else c

/-- The do-while form (VectorDetails.inl lines 520-523): step once, then
chase. -/
def grow_do (c s : Nat) : Nat := grow_whileGo s s (next_capacity c)

/-- First fill segment of one insert_horrible round (VectorDetails.inl lines
536-556): how many elements fit into `[i, c1)` of the fresh buffer. -/
def hk1 (c1 i : Nat) (xs : List α) : Nat := min (c1 - i) xs.length

/-- Second (wrapped) fill segment: how many of the remaining elements fit
into `[0, i)`. -/
def hk2 (c1 i : Nat) (xs : List α) : Nat := min i (xs.length - hk1 c1 i xs)

/-- The fresh buffer after the first fill segment. -/
def hA1 (c1 i : Nat) (xs : List α) : Slots α :=
  writeList (allocate α c1) i (xs.take (hk1 c1 i xs))

/-- The fresh buffer after both fill segments (circular fill from `i`). -/
def hA2 (c1 i : Nat) (xs : List α) : Slots α :=
  writeList (hA1 c1 i xs) 0 ((xs.drop (hk1 c1 i xs)).take (hk2 c1 i xs))

/-- What the buffer-chaining loop of insert_horrible produces: the fully
filled earlier buffers in allocation order, the last buffer, the
`lastInserted` offset within it, and the final `currentSize` and
`currentCapacity`. -/
structure HorribleChain (α : Type) where
  arrs : List (Slots α)
  lastA : Slots α
  lastIns : Nat
  sF : Nat
  cF : Nat

/-- The buffer-chaining loop of insert_horrible (VectorDetails.inl lines
505-566): each round grows the capacity until it holds the current size,
allocates a buffer of that capacity, and fills it circularly from the
current index; full buffers are chained and the loop repeats on the rest of
the input.  Fuel bounds the number of rounds; every round of the source
consumes at least one element, so `xs.length + 1` rounds always suffice. -/
def hchainGo : Nat → Nat → Nat → Nat → List α → HorribleChain α
  | 0, c, s, _, _ => ⟨[], [], 0, s, c⟩
  | fuel + 1, c, s, i, xs =>
    if hk1 (grow_do c s) i xs = xs.length then
      ⟨[], hA1 (grow_do c s) i xs, i + hk1 (grow_do c s) i xs,
        s + hk1 (grow_do c s) i xs, grow_do c s⟩
    else if hk1 (grow_do c s) i xs + hk2 (grow_do c s) i xs = xs.length then
      ⟨[], hA2 (grow_do c s) i xs, hk2 (grow_do c s) i xs,
        s + hk1 (grow_do c s) i xs + hk2 (grow_do c s) i xs, grow_do c s⟩
    else
      { hchainGo fuel (grow_do c s)
          (s + hk1 (grow_do c s) i xs + hk2 (grow_do c s) i xs)
          (i + hk1 (grow_do c s) i xs + hk2 (grow_do c s) i xs)
          (xs.drop (hk1 (grow_do c s) i xs + hk2 (grow_do c s) i xs)) with
        arrs := hA2 (grow_do c s) i xs ::
          (hchainGo fuel (grow_do c s)
            (s + hk1 (grow_do c s) i xs + hk2 (grow_do c s) i xs)
            (i + hk1 (grow_do c s) i xs + hk2 (grow_do c s) i xs)
            (xs.drop (hk1 (grow_do c s) i xs + hk2 (grow_do c s) i xs))).arrs }

/-- The contents of the chained full buffers: read in circular order from
`base`, buffer `k` holds the `k`-th consecutive chunk of `ys`, chunk sizes
being the buffer capacities. -/
def ArrsSpec : List (Slots α) → Nat → List α → Prop
  | [], _, ys => ys = []
  | A :: rest, base, ys =>
    base ≤ A.length ∧ A.length ≤ ys.length ∧
    (∀ j, j < A.length → read A j =
      (if base ≤ j then ys[j - base]? else ys[(A.length - base) + j]?)) ∧
    ArrsSpec rest (base + A.length) (ys.drop A.length)

/-- Everything the combine step needs to know about a finished chain run
that started at index `i` with size `s` and consumed `xs`: the final size
and capacity counters, the full buffers' contents (`D` elements), and the
last buffer's contents, which either sit contiguously at `[i + D, i +
xs.length)` (the fill never wrapped) or wrap around the end of the buffer —
and in the wrapped case the final size necessarily exceeds the last
capacity. -/
def ChainSpec (i s : Nat) (xs : List α) (r : HorribleChain α) : Prop :=
  ∃ D, D ≤ xs.length ∧ r.sF = s + xs.length ∧ r.cF = r.lastA.length ∧
    1 ≤ r.cF ∧ s + D ≤ r.cF ∧ ArrsSpec r.arrs i (xs.take D) ∧
    ((r.lastIns = i + xs.length ∧ i + xs.length ≤ r.cF ∧
        (∀ j, i + D ≤ j → j < i + xs.length →
          read r.lastA j = xs[D + (j - (i + D))]?))
      ∨ (r.cF < r.sF ∧ r.cF - (i + D) ≤ xs.length - D ∧ i + D ≤ r.cF ∧
        r.lastIns = xs.length - D - (r.cF - (i + D)) ∧ r.lastIns ≤ i + D ∧
        (∀ j, i + D ≤ j → j < r.cF →
          read r.lastA j = xs[D + (j - (i + D))]?) ∧
        (∀ j, j < r.lastIns →
          read r.lastA j = xs[D + (r.cF - (i + D)) + j]?)))

/-- The combine loop of insert_horrible (VectorDetails.inl lines 593-613):
for each full buffer, move `[arrayMid, arrayEnd)` and then `[arrayBegin,
arrayMid)` to the combine position and advance `combineIndex` by the
buffer's capacity; `combinePosition` always equals `finalArray +
combineIndex`. -/
def hcombine : List (Slots α) → Slots α → Nat → Slots α × Nat
  | [], F, cIdx => (F, cIdx)
  | A :: rest, F, cIdx =>
    hcombine rest
      (blit (blit F cIdx A cIdx A.length).fst
        (cIdx + (A.length - cIdx)) A 0 cIdx).fst
      (cIdx + A.length)

/-- The combine over the chained full buffers, into a fresh final array of
capacity `cFinal` (the lastArrayBad case of VectorDetails.inl line 583). -/
def hcombineF (cFinal index : Nat) (r : HorribleChain α) : Slots α × Nat :=
  hcombine r.arrs (allocate α cFinal) index

/-- The lastArrayBad tail of insert_horrible (VectorDetails.inl lines
617-645): the last, part-full buffer is moved into the fresh final array in
one or two segments depending on whether `lastInserted` wrapped past
`arrayMid`, and the buffer is freed. -/
def insert_horrible_bad (index cFinal : Nat) (r : HorribleChain α) :
    Slots α × Nat × Nat :=
  if r.lastIns ≤ (hcombineF cFinal index r).snd then
    ((blit (blit (hcombineF cFinal index r).fst (hcombineF cFinal index r).snd
        r.lastA (hcombineF cFinal index r).snd r.lastA.length).fst
        ((hcombineF cFinal index r).snd
          + (r.lastA.length - (hcombineF cFinal index r).snd)) r.lastA 0
        r.lastIns).fst,
      (hcombineF cFinal index r).snd
        + (r.lastA.length - (hcombineF cFinal index r).snd) + r.lastIns,
      cFinal)
  else
    ((blit (hcombineF cFinal index r).fst (hcombineF cFinal index r).snd
        r.lastA (hcombineF cFinal index r).snd r.lastIns).fst,
      (hcombineF cFinal index r).snd
        + (r.lastIns - (hcombineF cFinal index r).snd),
      cFinal)

/-- The combine phase of insert_horrible (VectorDetails.inl lines 568-656):
if the final size exceeds the last buffer's capacity (lastArrayBad), grow
the capacity to hold it, allocate the final array afresh and move
everything in; otherwise reuse the last buffer as the final array, combine
the earlier buffers into it, and jump the combine position to
`lastInserted`.  Returns the final array, the new size offset, and the new
capacity. -/
def insert_horrible_post (index : Nat) (r : HorribleChain α) :
    Slots α × Nat × Nat :=
  if r.cF < r.sF then
    insert_horrible_bad index (grow_whileGo r.sF r.sF r.cF) r
  else
    ((hcombine r.arrs r.lastA index).fst, r.lastIns, r.cF)

/-- insert_horrible(index, oldSize, oldCapacity, first, last)
(VectorDetails.inl lines 469-656): run the buffer chain on the input list
and combine. -/
def insert_horrible (index oldSize oldCapacity : Nat) (xs : List α) :
    Slots α × Nat × Nat :=
  insert_horrible_post index (hchainGo (xs.length + 1) oldCapacity oldSize index xs)

/-- The tail of insert_range(input_iterator_tag) after insert_horrible
(Vector.inl lines 1327-1356): move the old prefix and the temporarily
inserted ranges into `[0, newIndex)` of the horrible result `H`, move the
old suffix to the returned size cursor, and adopt the new array. -/
def assemble2 (v : Vec α) (pos : Nat) (r1 r2 : List α)
    (H : Slots α × Nat × Nat) : Vec α :=
  ⟨(blit (writeList (writeList (blit H.1 0 v.data 0 pos).fst pos r1)
      (pos + r1.length) r2) H.2.1 v.data pos v.size).fst,
    H.2.1 + (v.size - pos)⟩

/-- The horrible stage of insert_range(input_iterator_tag) (Vector.inl lines
1321-1356): `r1` and `r2` are the values held by the temporary buffer
(oldRanges[1]) and the fallback range (oldRanges[2]); `newIndex` is the
total length of the three prefix ranges and the current size was already
increased by the temporarily inserted elements. -/
def horrible_assemble (v : Vec α) (pos : Nat) (r1 r2 rest : List α) : Vec α :=
  assemble2 v pos r1 r2
    (insert_horrible (pos + r1.length + r2.length)
      (pos + r1.length + r2.length + (v.size - pos)) v.capacity rest)

/-- Modelled from the spec: the temporary-buffer size of
insert_range(input_iterator_tag) is "the smaller of the suffix and the
available capacity" (Vector.inl lines 1262-1276).  The source computes it as
`suffixSmaller ? suffixSize : remainderSize` with `remainderSize =
remainder()`, but `remainder()` is not defined anywhere in the repository;
per the surrounding comments and the spec's storage model the intended value
is the available capacity, capacity() - size(). -/
def tempCap (v : Vec α) (pos : Nat) : Nat :=
  if v.size - pos < v.capacity - v.size then v.size - pos else v.capacity - v.size

/-- The suffix-smaller continuation of insert_range(input_iterator_tag)
(Vector.inl lines 1296-1319): fill the vector's own spare slots
`[size, capacity - suffixSize)` from the remaining input; if that consumes
it, move the suffix up to the fill cursor and the temporary's elements into
`[position, position + suffixSize)`; otherwise hand the prefix, the
temporary's elements, the fallback range and the remaining input to the
horrible stage. -/
def insert_range_input_fb (v : Vec α) (pos : Nat) (xs : List α) : Vec α :=
  if (fill v.data v.size (v.capacity - (v.size - pos))
      (xs.drop (v.tempCap pos))).snd.snd.isEmpty = true then
    ⟨writeList (blit (fill v.data v.size (v.capacity - (v.size - pos))
          (xs.drop (v.tempCap pos))).fst
        (fill v.data v.size (v.capacity - (v.size - pos))
          (xs.drop (v.tempCap pos))).snd.fst
        (fill v.data v.size (v.capacity - (v.size - pos))
          (xs.drop (v.tempCap pos))).fst
        pos v.size).fst
      pos (xs.take (v.tempCap pos)),
      (fill v.data v.size (v.capacity - (v.size - pos))
        (xs.drop (v.tempCap pos))).snd.fst + (v.size - pos)⟩
  else
    horrible_assemble ⟨(fill v.data v.size (v.capacity - (v.size - pos))
        (xs.drop (v.tempCap pos))).fst, v.size⟩
      pos (xs.take (v.tempCap pos))
      ((xs.drop (v.tempCap pos)).take
        ((fill v.data v.size (v.capacity - (v.size - pos))
          (xs.drop (v.tempCap pos))).snd.fst - v.size))
      (fill v.data v.size (v.capacity - (v.size - pos))
        (xs.drop (v.tempCap pos))).snd.snd

/-- The non-full path of insert_range(input_iterator_tag) (Vector.inl lines
1253-1319): fill a temporary buffer of tempCap slots from the input; if the
input is exhausted the temporary is range-inserted (multi-pass, its contents
are exactly the consumed prefix of `xs`, which here is all of `xs`);
otherwise, with a smaller suffix the fallback fill runs, and else the
prefix, temporary and remaining input go to the horrible stage. -/
def insert_range_input_notfull (v : Vec α) (pos : Nat) (xs : List α) : Vec α :=
  if (fill (allocate α (v.tempCap pos)) 0 (v.tempCap pos) xs).snd.snd.isEmpty
      = true then
    v.insert_range_fwd pos xs
  else if v.size - pos < v.capacity - v.size then
    v.insert_range_input_fb pos xs
  else
    v.horrible_assemble pos (xs.take (v.tempCap pos)) []
      (xs.drop (v.tempCap pos))

/-- insert_range(position, first, last, input_iterator_tag) (Vector.inl
line 1233): an empty input is a no-op; a full vector goes straight to the
horrible stage with empty temporary ranges; otherwise the non-full path
above runs. -/
def insert_range_input (v : Vec α) (pos : Nat) (xs : List α) : Vec α :=
  if xs.isEmpty = true then v
  else if v.size ≠ v.capacity then v.insert_range_input_notfull pos xs
  else v.horrible_assemble pos [] [] xs

end Vec

theorem read_eq_none_of_le {a : Slots α} {j : Nat} (h : a.length ≤ j) :
    read a j = none := by
  induction a generalizing j with
  | nil => cases j <;> rfl
  | cons o a ih =>
    cases j with
    | zero => simp at h
    | succ n => exact ih (by simpa using h)

theorem read_eq_getElem {a : Slots α} {j : Nat} (h : j < a.length) :
    read a j = a[j] := by
  induction a generalizing j with
  | nil => simp at h
  | cons o a ih =>
    cases j with
    | zero => rfl
    | succ n => exact ih (by simpa using h)

theorem read_eq_getElem? (a : Slots α) (j : Nat) :
    read a j = (a[j]?).join := by
  by_cases h : j < a.length
  · rw [read_eq_getElem h, List.getElem?_eq_getElem h]; rfl
  · rw [read_eq_none_of_le (Nat.le_of_not_lt h),
      List.getElem?_eq_none (Nat.le_of_not_lt h)]; rfl

theorem getElem?_eq_read {a : Slots α} {j : Nat} (h : j < a.length) :
    a[j]? = some (read a j) := by
  rw [read_eq_getElem h, List.getElem?_eq_getElem h]

theorem read_set_self {a : Slots α} {i : Nat} (x : Option α) (h : i < a.length) :
    read (a.set i x) i = x := by
  rw [read_eq_getElem (by simpa using h)]
  simp

theorem read_set_ne {a : Slots α} {i j : Nat} (x : Option α) (h : i ≠ j) :
    read (a.set i x) j = read a j := by
  rw [read_eq_getElem? , read_eq_getElem?, List.getElem?_set_ne h]

theorem read_replicate (n j : Nat) : read (List.replicate n (none : Option α)) j = none := by
  rw [read_eq_getElem?]
  rcases Nat.lt_or_ge j n with h | h
  · rw [List.getElem?_replicate, if_pos h]; rfl
  · rw [List.getElem?_eq_none (by simpa using h)]; rfl

theorem read_allocate (n j : Nat) : read (allocate α n) j = none := read_replicate n j

/-- Convert pointwise slot reads into a description of the live range as a
list of values. -/
theorem take_eq_map_some {a : Slots α} {l : List α} (hlen : l.length ≤ a.length)
    (h : ∀ j, j < l.length → read a j = l[j]?) :
    a.take l.length = l.map some := by
  apply List.ext_getElem?
  intro j
  by_cases hj : j < l.length
  · rw [List.getElem?_take, if_pos hj, List.getElem?_map,
      getElem?_eq_read (Nat.lt_of_lt_of_le hj hlen), h j hj,
      List.getElem?_eq_getElem hj]
    simp
  · have h1 : l.length ≤ j := Nat.le_of_not_lt hj
    rw [List.getElem?_take, if_neg hj, List.getElem?_eq_none (by simpa using h1)]

/-- Recover pointwise reads from a description of a prefix of the slots. -/
theorem read_of_take_eq {a : Slots α} {n : Nat} {l : List α}
    (ht : a.take n = l.map some) (hn : n ≤ a.length) :
    ∀ j, j < n → read a j = l[j]? := by
  intro j hj
  have hlen : l.length = n := by
    have h2 := congrArg List.length ht
    simp only [List.length_take, List.length_map] at h2
    omega

  have h1 : (a.take n)[j]? = (l.map some)[j]? := by rw [ht]
  rw [List.getElem?_take, if_pos hj, getElem?_eq_read (Nat.lt_of_lt_of_le hj hn),
    List.getElem?_map] at h1
  have hjl : j < l.length := by omega
  rw [List.getElem?_eq_getElem hjl] at h1 ⊢
  have h2 : read a j = some l[j] := by
    have h3 := h1
    simp only [Option.map_some] at h3 ⊢
    exact Option.some_injective _ h3
  simpa using h2

theorem blitGo_snd {dst src : Slots α} {d s k : Nat} :
    (blitGo dst d src s k).snd = d + k := by
  induction k generalizing dst d s with
  | zero => rfl
  | succ k ih => rw [blitGo, ih]; omega

theorem blitGo_length {dst src : Slots α} {d s k : Nat} :
    (blitGo dst d src s k).fst.length = dst.length := by
  induction k generalizing dst d s with
  | zero => rfl
  | succ k ih => rw [blitGo, ih, List.length_set]

theorem blitGo_read {dst src : Slots α} {d s k : Nat}
    (hb : d + k ≤ dst.length) (j : Nat) :
    read (blitGo dst d src s k).fst j =
      if d ≤ j ∧ j < d + k then read src (s + (j - d)) else read dst j := by
  induction k generalizing dst d s with
  | zero => rw [blitGo, if_neg (by omega)]
  | succ k ih =>
    rw [blitGo]
    have hb1 : d + 1 + k ≤ (dst.set d (read src s)).length := by
      rw [List.length_set]; omega
    rw [ih hb1]
    by_cases h1 : d + 1 ≤ j ∧ j < d + 1 + k
    · rw [if_pos h1, if_pos (by omega)]
      congr 1
      omega
    · rw [if_neg h1]
      by_cases h2 : j = d
      · subst h2
        rw [read_set_self _ (by omega), if_pos (by omega)]
        congr 1
        omega
      · rw [read_set_ne _ (by omega), if_neg (by omega)]

theorem blit_snd {dst src : Slots α} {d s e : Nat} :
    (blit dst d src s e).snd = d + (e - s) := blitGo_snd

theorem blit_length {dst src : Slots α} {d s e : Nat} :
    (blit dst d src s e).fst.length = dst.length := blitGo_length

theorem blit_read {dst src : Slots α} {d s e : Nat}
    (hb : d + (e - s) ≤ dst.length) (j : Nat) :
    read (blit dst d src s e).fst j =
      if d ≤ j ∧ j < d + (e - s) then read src (s + (j - d)) else read dst j :=
  blitGo_read hb j

theorem blitSelfGo_snd {a : Slots α} {d s k : Nat} :
    (blitSelfGo a d s k).snd = d + k := by
  induction k generalizing a d s with
  | zero => rfl
  | succ k ih => rw [blitSelfGo, ih]; omega

theorem blitSelfGo_length {a : Slots α} {d s k : Nat} :
    (blitSelfGo a d s k).fst.length = a.length := by
  induction k generalizing a d s with
  | zero => rfl
  | succ k ih => rw [blitSelfGo, ih, List.length_set]

/-- When the destination does not run ahead of the source (d ≤ s) the
self-copy reads only slots that have not yet been overwritten, so its result
is described by the original slot contents. -/
theorem blitSelfGo_read {a : Slots α} {d s k : Nat}
    (hd : d ≤ s) (he : s + k ≤ a.length) (j : Nat) :
    read (blitSelfGo a d s k).fst j =
      if d ≤ j ∧ j < d + k then read a (s + (j - d)) else read a j := by
  induction k generalizing a d s with
  | zero => rw [blitSelfGo, if_neg (by omega)]
  | succ k ih =>
    rw [blitSelfGo]
    have he1 : s + 1 + k ≤ (a.set d (read a s)).length := by
      rw [List.length_set]; omega
    rw [ih (by omega) he1]
    by_cases h1 : d + 1 ≤ j ∧ j < d + 1 + k
    · rw [if_pos h1, read_set_ne _ (by omega), if_pos (by omega)]
      congr 1
      omega
    · rw [if_neg h1]
      by_cases h2 : j = d
      · subst h2
        rw [read_set_self _ (by omega), if_pos (by omega)]
        congr 1
        omega
      · rw [read_set_ne _ (by omega), if_neg (by omega)]

theorem blitSelf_snd {a : Slots α} {d s e : Nat} :
    (blitSelf a d s e).snd = d + (e - s) := blitSelfGo_snd

theorem blitSelf_length {a : Slots α} {d s e : Nat} :
    (blitSelf a d s e).fst.length = a.length := blitSelfGo_length

theorem blitSelf_read {a : Slots α} {d s e : Nat}
    (hd : d ≤ s) (hse : s ≤ e) (he : e ≤ a.length) (j : Nat) :
    read (blitSelf a d s e).fst j =
      if d ≤ j ∧ j < d + (e - s) then read a (s + (j - d)) else read a j :=
  blitSelfGo_read hd (by omega) j

theorem move_loopGo_length {a : Slots α} {p n k : Nat} :
    (move_loopGo a p n k).length = a.length := by
  induction k generalizing a with
  | zero => rfl
  | succ k ih => rw [move_loopGo, ih, List.length_set]

theorem move_loop_length {a : Slots α} {p n src : Nat} :
    (move_loop a p n src).length = a.length := move_loopGo_length

/-- Because the loop runs backward, every slot it reads is still unchanged
from the original allocation, and the net effect is a forward shift of the
range `[p, p + k)` by `n`. -/
theorem move_loopGo_read {a : Slots α} {p n k : Nat}
    (hn : 1 ≤ n) (hb : p + k + n ≤ a.length) (j : Nat) :
    read (move_loopGo a p n k) j =
      if p + n ≤ j ∧ j < p + k + n then read a (j - n) else read a j := by
  induction k generalizing a with
  | zero =>
    rw [move_loopGo, if_neg (by omega)]
  | succ k ih =>
    rw [move_loopGo]
    have hb1 : p + k + n ≤ (a.set (p + k + n) (read a (p + k))).length := by
      rw [List.length_set]; omega
    rw [ih hb1]
    by_cases h1 : p + n ≤ j ∧ j < p + k + n
    · rw [if_pos h1, if_pos (by omega), read_set_ne _ (by omega)]
    · rw [if_neg h1]
      by_cases h2 : j = p + k + n
      · subst h2
        rw [read_set_self _ (by omega), if_pos (by omega)]
        congr 1
        omega
      · rw [read_set_ne _ (by omega), if_neg (by omega)]

theorem move_loop_read {a : Slots α} {p n src : Nat}
    (hp : p ≤ src) (hn : 1 ≤ n) (hb : src + n ≤ a.length) (j : Nat) :
    read (move_loop a p n src) j =
      if p + n ≤ j ∧ j < src + n then read a (j - n) else read a j := by
  unfold move_loop
  rw [move_loopGo_read hn (by omega) j]
  have h1 : p + (src - p) + n = src + n := by omega
  rw [h1]

theorem fill_length {a : Slots α} {lo hi : Nat} {xs : List α} :
    (fill a lo hi xs).fst.length = a.length := by
  induction xs generalizing a lo with
  | nil => rfl
  | cons x xs ih =>
    rw [fill]
    by_cases h : lo < hi
    · rw [if_pos h, ih, List.length_set]
    · rw [if_neg h]

theorem fill_cursor {a : Slots α} {lo hi : Nat} {xs : List α} (h : lo ≤ hi) :
    (fill a lo hi xs).snd.fst = lo + min (hi - lo) xs.length := by
  induction xs generalizing a lo with
  | nil => simp [fill]
  | cons x xs ih =>
    rw [fill]
    by_cases h1 : lo < hi
    · rw [if_pos h1, ih (by omega)]
      simp only [List.length_cons]
      omega
    · rw [if_neg h1]
      simp only [List.length_cons]
      omega

theorem fill_rest {a : Slots α} {lo hi : Nat} {xs : List α} (h : lo ≤ hi) :
    (fill a lo hi xs).snd.snd = xs.drop (min (hi - lo) xs.length) := by
  induction xs generalizing a lo with
  | nil => simp [fill]
  | cons x xs ih =>
    rw [fill]
    by_cases h1 : lo < hi
    · rw [if_pos h1, ih (by omega)]
      have h2 : min (hi - lo) (x :: xs).length = min (hi - (lo + 1)) xs.length + 1 := by
        simp only [List.length_cons]
        omega
      rw [h2, List.drop_succ_cons]
    · rw [if_neg h1]
      have h2 : min (hi - lo) (x :: xs).length = 0 := by omega
      rw [h2, List.drop_zero]

theorem fill_read {a : Slots α} {lo hi : Nat} {xs : List α}
    (h : lo ≤ hi) (hb : hi ≤ a.length) (j : Nat) :
    read (fill a lo hi xs).fst j =
      if lo ≤ j ∧ j < lo + min (hi - lo) xs.length then xs[j - lo]? else read a j := by
  induction xs generalizing a lo with
  | nil => rw [fill, if_neg (by simp)]
  | cons x xs ih =>
    rw [fill]
    by_cases h1 : lo < hi
    · rw [if_pos h1]
      have hb1 : hi ≤ (a.set lo (some x)).length := by rw [List.length_set]; omega
      rw [ih (by omega) hb1]
      by_cases h2 : lo + 1 ≤ j ∧ j < lo + 1 + min (hi - (lo + 1)) xs.length
      · rw [if_pos h2, if_pos (by simp only [List.length_cons]; omega)]
        have h3 : j - lo = (j - (lo + 1)) + 1 := by omega
        rw [h3, List.getElem?_cons_succ]
      · rw [if_neg h2]
        by_cases h3 : j = lo
        · subst h3
          rw [read_set_self _ (by omega), if_pos (by simp only [List.length_cons]; omega)]
          simp
        · rw [read_set_ne _ (by omega), if_neg (by simp only [List.length_cons]; omega)]
    · rw [if_neg h1, if_neg (by simp only [List.length_cons]; omega)]

theorem writeList_length {a : Slots α} {i : Nat} {xs : List α} :
    (writeList a i xs).length = a.length := by
  induction xs generalizing a i with
  | nil => rfl
  | cons x xs ih => rw [writeList, ih, List.length_set]

theorem writeList_read {a : Slots α} {i : Nat} {xs : List α}
    (hb : i + xs.length ≤ a.length) (j : Nat) :
    read (writeList a i xs) j =
      if i ≤ j ∧ j < i + xs.length then xs[j - i]? else read a j := by
  induction xs generalizing a i with
  | nil => rw [writeList, if_neg (by simp)]
  | cons x xs ih =>
    rw [writeList]
    have hb1 : i + 1 + xs.length ≤ (a.set i (some x)).length := by
      rw [List.length_set]
      simp only [List.length_cons] at hb
      omega
    rw [ih hb1]
    by_cases h1 : i + 1 ≤ j ∧ j < i + 1 + xs.length
    · rw [if_pos h1, if_pos (by simp only [List.length_cons]; omega)]
      have h3 : j - i = (j - (i + 1)) + 1 := by omega
      rw [h3, List.getElem?_cons_succ]
    · rw [if_neg h1]
      by_cases h2 : j = i
      · subst h2
        rw [read_set_self _ (by simp only [List.length_cons] at hb; omega),
          if_pos (by simp only [List.length_cons]; omega)]
        simp
      · rw [read_set_ne _ (by omega), if_neg (by simp only [List.length_cons]; omega)]

theorem construct_n_go_length {a : Slots α} {i m : Nat} {x : Option α} :
    (construct_n_go a i x m).length = a.length := by
  induction m generalizing a i with
  | zero => rfl
  | succ m ih => rw [construct_n_go, ih, List.length_set]

theorem construct_n_go_read {a : Slots α} {i m : Nat} {x : Option α}
    (hb : i + m ≤ a.length) (j : Nat) :
    read (construct_n_go a i x m) j =
      if i ≤ j ∧ j < i + m then x else read a j := by
  induction m generalizing a i with
  | zero => rw [construct_n_go, if_neg (by omega)]
  | succ m ih =>
    rw [construct_n_go]
    have hb1 : i + 1 + m ≤ (a.set i x).length := by rw [List.length_set]; omega
    rw [ih hb1]
    by_cases h1 : i + 1 ≤ j ∧ j < i + 1 + m
    · rw [if_pos h1, if_pos (by omega)]
    · rw [if_neg h1]
      by_cases h2 : j = i
      · subst h2
        rw [read_set_self _ (by omega), if_pos (by omega)]
      · rw [read_set_ne _ (by omega), if_neg (by omega)]

theorem construct_n_length {a : Slots α} {i n : Nat} {x : Option α} :
    (construct_n a i n x).length = a.length := construct_n_go_length

theorem construct_n_read {a : Slots α} {i n : Nat} {x : Option α}
    (hb : i + n ≤ a.length) (j : Nat) :
    read (construct_n a i n x) j =
      if i ≤ j ∧ j < i + n then x else read a j := by
  rw [construct_n]
  have h1 : min n (a.length - i) = n := by omega
  rw [h1, construct_n_go_read hb]

/-- Helper for reading a position of a three-part concatenation. -/
theorem getElem?_append3 {P X S : List α} (j : Nat) :
    (P ++ X ++ S)[j]? =
      if j < P.length then P[j]?
      else if j < P.length + X.length then X[j - P.length]?
      else S[j - P.length - X.length]? := by
  rw [List.append_assoc, List.getElem?_append]
  by_cases h1 : j < P.length
  · rw [if_pos h1, if_pos h1]
  · rw [if_neg h1, if_neg h1, List.getElem?_append]
    by_cases h2 : j < P.length + X.length
    · rw [if_pos (by omega), if_pos h2]
    · rw [if_neg (by omega), if_neg h2]

theorem mkVec_rep (l : List α) (extra : Nat) : Rep (mkVec l extra) l := by
  refine ⟨by simp [mkVec, Vec.capacity], ?_⟩
  show List.take l.length (l.map some ++ List.replicate extra none) = l.map some
  exact List.take_left' (by simp)

theorem mkVec_capacity (l : List α) (extra : Nat) :
    (mkVec l extra).capacity = l.length + extra := by
  simp [mkVec, Vec.capacity]

theorem mkVec_size (l : List α) (extra : Nat) : (mkVec l extra).size = l.length := rfl

theorem Rep.size_eq {v : Vec α} {l : List α} (h : Rep v l) : v.size = l.length := by
  have h2 := congrArg List.length h.2
  simp only [List.length_take, List.length_map] at h2
  have h3 : v.size ≤ v.data.length := h.1
  omega

theorem Rep.size_le {v : Vec α} {l : List α} (h : Rep v l) : v.size ≤ v.data.length := h.1

theorem Rep.read_eq {v : Vec α} {l : List α} (h : Rep v l) :
    ∀ j, j < v.size → read v.data j = l[j]? := by
  intro j hj
  have h1 := read_of_take_eq h.2 h.1 j hj
  exact h1

theorem Rep.of_read {v : Vec α} {l : List α} (hcap : v.size ≤ v.capacity)
    (hsz : v.size = l.length) (h : ∀ j, j < v.size → read v.data j = l[j]?) :
    Rep v l := by
  refine ⟨hcap, ?_⟩
  rw [hsz]
  exact take_eq_map_some (by have := hcap; unfold Vec.capacity at this; omega)
    (by intro j hj; exact h j (by omega))

namespace Vec

theorem really_reallocate_capacity {v : Vec α} {c : Nat} :
    (v.really_reallocate c).capacity = c := by
  simp [really_reallocate, capacity, blit_length, allocate]

theorem really_reallocate_size {v : Vec α} {c : Nat} :
    (v.really_reallocate c).size = v.size := by
  simp [really_reallocate, blit_snd]

theorem really_reallocate_read {v : Vec α} {c : Nat} (h : v.size ≤ c) (j : Nat) :
    read (v.really_reallocate c).data j =
      if j < v.size then read v.data j else none := by
  show read (blit (allocate α c) 0 v.data 0 v.size).fst j = _
  rw [blit_read (by simp [allocate]; omega)]
  by_cases h1 : j < v.size
  · rw [if_pos (by omega), if_pos h1]
    congr 1
    omega
  · rw [if_neg (by omega), if_neg h1, read_allocate]

theorem really_reallocate_rep {v : Vec α} {l : List α} {c : Nat}
    (h : Rep v l) (hc : v.size ≤ c) : Rep (v.really_reallocate c) l := by
  refine Rep.of_read ?_ ?_ ?_
  · rw [really_reallocate_capacity, really_reallocate_size]; exact hc
  · rw [really_reallocate_size]; exact h.size_eq
  · intro j hj
    rw [really_reallocate_size] at hj
    rw [really_reallocate_read hc, if_pos hj]
    exact h.read_eq j hj

theorem reallocate_capacity {v : Vec α} {c : Nat} :
    (v.reallocate c).capacity = max c v.capacity := by
  unfold reallocate
  by_cases h : c > v.capacity
  · rw [if_pos h, really_reallocate_capacity]; omega
  · rw [if_neg h]; omega

theorem reallocate_size {v : Vec α} {c : Nat} : (v.reallocate c).size = v.size := by
  unfold reallocate
  by_cases h : c > v.capacity
  · rw [if_pos h, really_reallocate_size]
  · rw [if_neg h]

theorem reallocate_rep {v : Vec α} {l : List α} {c : Nat} (h : Rep v l) :
    Rep (v.reallocate c) l := by
  unfold reallocate
  by_cases hgt : c > v.capacity
  · rw [if_pos hgt]
    exact really_reallocate_rep h (by have := h.1; omega)
  · rw [if_neg hgt]
    exact h

end Vec

/-- Slot-list analogue of take_eq_map_some for targets that contain
uninitialised slots. -/
theorem take_eq_slots {a m : Slots α} (hlen : m.length ≤ a.length)
    (h : ∀ j, j < m.length → read a j = read m j) : a.take m.length = m := by
  apply List.ext_getElem?
  intro j
  by_cases hj : j < m.length
  · rw [List.getElem?_take, if_pos hj, getElem?_eq_read (Nat.lt_of_lt_of_le hj hlen),
      h j hj, getElem?_eq_read hj]
  · rw [List.getElem?_take, if_neg hj, List.getElem?_eq_none (by omega)]

/-- Reading a slot list of the form prefix / uninitialised gap / suffix. -/
theorem read_append3_slots {P S : List α} {n j : Nat} :
    read (P.map some ++ List.replicate n (none : Option α) ++ S.map some) j =
      if j < P.length then P[j]?
      else if j < P.length + n then none
      else S[j - P.length - n]? := by
  rw [read_eq_getElem?, List.append_assoc, List.getElem?_append]
  simp only [List.length_map]
  by_cases h1 : j < P.length
  · rw [if_pos h1, if_pos h1, List.getElem?_map, List.getElem?_eq_getElem h1]
    rfl
  · rw [if_neg h1, if_neg h1, List.getElem?_append]
    simp only [List.length_replicate]
    by_cases h2 : j - P.length < n
    · rw [if_pos h2, if_pos (by omega), List.getElem?_replicate, if_pos h2]
      rfl
    · rw [if_neg h2, if_neg (by omega), List.getElem?_map]
      by_cases h3 : j - P.length - n < S.length
      · rw [List.getElem?_eq_getElem h3]
        rfl
      · rw [List.getElem?_eq_none (by omega)]
        rfl

namespace Vec

theorem le_next_capacity (n : Nat) : n ≤ next_capacity n := by
  unfold next_capacity
  by_cases h : n ≠ 0
  · rw [if_pos h]; omega
  · rw [if_neg h]; omega

theorem lt_next_capacity (n : Nat) : n < next_capacity n := by
  unfold next_capacity
  by_cases h : n ≠ 0
  · rw [if_pos h]; omega
  · rw [if_neg h]; omega

theorem move_forward_n_fst_size {v : Vec α} {p n : Nat} :
    (v.move_forward_n p n).fst.size = v.size + n := rfl

theorem move_forward_n_fst_capacity {v : Vec α} {p n : Nat} :
    (v.move_forward_n p n).fst.capacity = v.capacity := by
  show (move_loop v.data p n v.size).length = v.data.length
  exact move_loop_length

theorem move_forward_n_read {v : Vec α} {p n : Nat}
    (hp : p ≤ v.size) (hn : 1 ≤ n) (hb : v.size + n ≤ v.capacity) (j : Nat) :
    read (v.move_forward_n p n).fst.data j =
      if p + n ≤ j ∧ j < v.size + n then read v.data (j - n) else read v.data j := by
  exact move_loop_read hp hn hb j

/-- Combined description of make_gap_n: gap start, new size, new capacity,
and preservation of the elements on both sides of the gap. -/
theorem make_gap_n_spec {v : Vec α} {p n : Nat}
    (hp : p ≤ v.size) (hn : 1 ≤ n) :
    (v.make_gap_n p n).snd.fst = p ∧
    (v.make_gap_n p n).fst.size = v.size + n ∧
    (v.make_gap_n p n).fst.capacity =
      (if v.size + n > v.capacity then next_capacity (v.size + n) else v.capacity) ∧
    (∀ j, j < p → read (v.make_gap_n p n).fst.data j = read v.data j) ∧
    (∀ j, p + n ≤ j → j < v.size + n →
      read (v.make_gap_n p n).fst.data j = read v.data (j - n)) := by
  unfold make_gap_n
  by_cases hc : v.size + n > v.capacity
  · rw [if_pos hc]
    simp only [if_pos hc]
    have hcap : v.size + n ≤ next_capacity (v.size + n) := le_next_capacity _
    have hlen1 : (blit (allocate α (next_capacity (v.size + n))) 0 v.data 0 p).fst.length
        = next_capacity (v.size + n) := by
      rw [blit_length]
      simp [allocate]
    have hr1 : (blit (allocate α (next_capacity (v.size + n))) 0 v.data 0 p).snd = p := by
      rw [blit_snd]
      omega
    refine ⟨hr1, ?_, ?_, ?_, ?_⟩
    · show (blit _ (_ + n) v.data p v.size).snd = v.size + n
      rw [blit_snd, hr1]
      omega
    · show (blit _ (_ + n) v.data p v.size).fst.length = _
      rw [blit_length, hlen1]
    · intro j hj
      show read (blit _ (_ + n) v.data p v.size).fst j = _
      rw [hr1, blit_read (by rw [hlen1]; omega), if_neg (by omega),
        blit_read (by simp [allocate]; omega), if_pos (by omega)]
      congr 1
      omega
    · intro j hj1 hj2
      show read (blit _ (_ + n) v.data p v.size).fst j = _
      rw [hr1, blit_read (by rw [hlen1]; omega), if_pos (by omega)]
      congr 1
      omega
  · rw [if_neg hc]
    refine ⟨rfl, rfl, ?_, ?_, ?_⟩
    · rw [if_neg hc]
      exact move_forward_n_fst_capacity
    · intro j hj
      rw [move_forward_n_read hp hn (by omega), if_neg (by omega)]
    · intro j hj1 hj2
      rw [move_forward_n_read hp hn (by omega), if_pos (by omega)]

/-- In the reallocating branch of make_gap_n the gap slots of the fresh
buffer are uninitialised. -/
theorem make_gap_n_gap_none {v : Vec α} {p n : Nat}
    (hp : p ≤ v.size) (hc : v.size + n > v.capacity) :
    ∀ j, p ≤ j → j < p + n → read (v.make_gap_n p n).fst.data j = none := by
  intro j hj1 hj2
  unfold make_gap_n
  rw [if_pos hc]
  have hcap : v.size + n ≤ next_capacity (v.size + n) := le_next_capacity _
  have hlen1 : (blit (allocate α (next_capacity (v.size + n))) 0 v.data 0 p).fst.length
      = next_capacity (v.size + n) := by
    rw [blit_length]
    simp [allocate]
  have hr1 : (blit (allocate α (next_capacity (v.size + n))) 0 v.data 0 p).snd = p := by
    rw [blit_snd]
    omega
  show read (blit _ (_ + n) v.data p v.size).fst j = _
  rw [hr1, blit_read (by rw [hlen1]; omega), if_neg (by omega),
    blit_read (by simp [allocate]; omega), if_neg (by omega), read_allocate]

theorem erase_capacity {v : Vec α} {f l : Nat} : (v.erase f l).capacity = v.capacity := by
  unfold erase
  by_cases h1 : f = l
  · rw [if_pos h1]
  · rw [if_neg h1]
    by_cases h2 : l = v.size
    · rw [if_pos h2]; rfl
    · rw [if_neg h2]
      show (blitSelf v.data f l v.size).fst.length = v.data.length
      exact blitSelf_length

theorem erase_size {v : Vec α} {f l : Nat} (hf : f ≤ l) (hl : l ≤ v.size) :
    (v.erase f l).size = v.size - (l - f) := by
  unfold erase
  by_cases h1 : f = l
  · rw [if_pos h1]; omega
  · rw [if_neg h1]
    by_cases h2 : l = v.size
    · rw [if_pos h2]
      show f = v.size - (l - f)
      omega
    · rw [if_neg h2]
      show (blitSelf v.data f l v.size).snd = v.size - (l - f)
      rw [blitSelf_snd]
      omega

theorem erase_rep {v : Vec α} {L : List α} {f l : Nat}
    (h : Rep v L) (hf : f ≤ l) (hl : l ≤ v.size) :
    Rep (v.erase f l) (L.take f ++ L.drop l) := by
  have hszL := h.size_eq
  have hlen : (L.take f ++ L.drop l).length = v.size - (l - f) := by
    simp only [List.length_append, List.length_take, List.length_drop]
    omega
  refine Rep.of_read ?_ ?_ ?_
  · rw [erase_size hf hl, erase_capacity]
    have := h.1
    omega
  · rw [erase_size hf hl, hlen]
  · rw [erase_size hf hl]
    intro j hj
    have hread : read (v.erase f l).data j =
        (if j < f then read v.data j else read v.data (l + (j - f))) := by
      unfold erase
      by_cases h1 : f = l
      · subst h1
        rw [if_pos rfl]
        by_cases h2 : j < f
        · rw [if_pos h2]
        · rw [if_neg h2]
          congr 1
          omega
      · rw [if_neg h1]
        by_cases h2 : l = v.size
        · rw [if_pos h2]
          rw [if_pos (by omega)]
          rfl
        · rw [if_neg h2]
          show read (blitSelf v.data f l v.size).fst j = _
          rw [blitSelf_read hf hl h.size_le j]
          by_cases h3 : j < f
          · rw [if_neg (by omega), if_pos h3]
          · rw [if_pos (by omega), if_neg h3]
    rw [hread]
    by_cases h3 : j < f
    · rw [if_pos h3, h.read_eq j (by omega), List.getElem?_append]
      simp only [List.length_take]
      rw [if_pos (by omega), List.getElem?_take, if_pos h3]
    · rw [if_neg h3, h.read_eq (l + (j - f)) (by omega), List.getElem?_append]
      simp only [List.length_take]
      rw [if_neg (by omega), List.getElem?_drop]
      congr 1
      omega

theorem emplace_back_internal_size {simple : Bool} {v : Vec α} {x : α} :
    (v.emplace_back_internal simple x).size = v.size + 1 := by
  unfold emplace_back_internal
  by_cases h1 : v.size = v.capacity
  · rw [if_neg (by simp [h1])]
    by_cases h2 : simple
    · rw [if_pos h2]
      show v.reallocate_next.size + 1 = v.size + 1
      show (v.really_reallocate v.next_capacity0).size + 1 = v.size + 1
      rw [really_reallocate_size]
    · rw [if_neg h2]
  · rw [if_pos h1]

theorem emplace_back_internal_capacity {simple : Bool} {v : Vec α} {x : α} :
    (v.emplace_back_internal simple x).capacity =
      (if v.size = v.capacity then next_capacity v.capacity else v.capacity) := by
  unfold emplace_back_internal
  by_cases h1 : v.size = v.capacity
  case neg =>
    rw [if_pos h1, if_neg h1]
    show (v.data.set v.size (some x)).length = v.capacity
    rw [List.length_set]
    rfl
  case pos =>
    rw [if_neg (by simp [h1]), if_pos h1]
    by_cases h2 : simple
    · rw [if_pos h2]
      show (v.reallocate_next.data.set _ _).length = _
      rw [List.length_set]
      show v.reallocate_next.capacity = _
      rw [reallocate_next, really_reallocate_capacity]
      rfl
    · rw [if_neg h2]
      show (blit _ 0 v.data 0 v.size).fst.length = _
      rw [blit_length, List.length_set]
      simp [allocate, next_capacity0]

theorem emplace_back_internal_rep {simple : Bool} {v : Vec α} {L : List α} {x : α}
    (h : Rep v L) : Rep (v.emplace_back_internal simple x) (L ++ [x]) := by
  have hsz : v.size = L.length := h.size_eq
  have happ : ∀ j, j < v.size + 1 →
      (L ++ [x])[j]? = (if j < v.size then L[j]? else some x) := by
    intro j hj
    by_cases h1 : j < v.size
    · rw [if_pos h1, List.getElem?_append]
      rw [if_pos (by omega)]
    · rw [if_neg h1, List.getElem?_append_right (by omega)]
      have h2 : j - L.length = 0 := by omega
      rw [h2]
      rfl
  have hcap' := @emplace_back_internal_capacity α simple v x
  have hsize' := @emplace_back_internal_size α simple v x
  refine Rep.of_read ?_ ?_ ?_
  · rw [hsize', hcap']
    by_cases h1 : v.size = v.capacity
    · rw [if_pos h1]
      have := lt_next_capacity v.capacity
      omega
    · rw [if_neg h1]
      have := h.1
      omega
  · rw [hsize']
    simp [hsz]
  · rw [hsize']
    intro j hj
    rw [happ j hj]
    unfold emplace_back_internal
    by_cases h1 : v.size = v.capacity
    case neg =>
      rw [if_pos h1]
      show read (v.data.set v.size (some x)) j = _
      by_cases h2 : j < v.size
      · rw [read_set_ne _ (by omega), if_pos h2, h.read_eq j h2]
      · have h3 : j = v.size := by omega
        subst h3
        have h5 : v.size ≠ v.data.length := h1
        have h6 : v.size ≤ v.data.length := h.1
        rw [read_set_self _ (by omega), if_neg (by omega)]
    case pos =>
      rw [if_neg (by simp [h1])]
      have hfull : v.size = v.capacity := h1
      by_cases h2 : simple
      · rw [if_pos h2]
        show read (v.reallocate_next.data.set v.reallocate_next.size (some x)) j = _
        have hrsz : v.reallocate_next.size = v.size := really_reallocate_size
        have hrcap : v.reallocate_next.capacity = next_capacity v.capacity :=
          really_reallocate_capacity
        have hle : v.size ≤ v.next_capacity0 := by
          show v.size ≤ next_capacity v.capacity
          have := le_next_capacity v.capacity
          omega
        by_cases h3 : j < v.size
        · rw [read_set_ne _ (by omega), if_pos h3]
          show read (v.really_reallocate v.next_capacity0).data j = _
          rw [really_reallocate_read hle, if_pos h3]
          exact h.read_eq j h3
        · have h4 : j = v.size := by omega
          subst h4
          have h5 : v.reallocate_next.data.length = next_capacity v.capacity := hrcap
          rw [hrsz, read_set_self _ (by rw [h5]; have := lt_next_capacity v.capacity; omega),
            if_neg (by omega)]
      · rw [if_neg h2]
        show read (blit ((allocate α v.next_capacity0).set v.size (some x)) 0 v.data 0 v.size).fst j = _
        have hlen : ((allocate α v.next_capacity0).set v.size (some x)).length
            = next_capacity v.capacity := by
          rw [List.length_set]
          simp [allocate, next_capacity0]
        rw [blit_read (by rw [hlen]; have := le_next_capacity v.capacity; omega)]
        by_cases h3 : j < v.size
        · rw [if_pos (by omega), if_pos h3]
          have h4 : read v.data (0 + (j - 0)) = read v.data j := by congr 1; omega
          rw [h4]
          exact h.read_eq j h3
        · have h4 : j = v.size := by omega
          subst h4
          have h6 : v.size < ((allocate α v.next_capacity0).set v.size (some x)).length := by
            rw [hlen]
            have := lt_next_capacity v.capacity
            omega
          have h7 : v.size < (allocate α v.next_capacity0).length := by
            rw [List.length_set] at h6
            exact h6
          rw [if_neg (by omega), if_neg (by omega), read_set_self _ h7]

end Vec

/-!  Claim theorems. -/
/-- C9: pop_back() on an empty vector is a no-op that never fails: it reports
no error and leaves the vector (its size, capacity and element sequence)
exactly as it was. -/
theorem c9_pop_back_empty_noop (v : Vec α) (h : v.empty = true) :
    v.pop_back = v ∧ v.pop_back.size = v.size ∧ v.pop_back.capacity = v.capacity ∧
      v.pop_back.data.take v.pop_back.size = v.data.take v.size := by
  unfold Vec.pop_back
  rw [if_pos h]
  exact ⟨rfl, rfl, rfl, rfl⟩

theorem c9_pop_back_empty_noop_witness :
    (mkVec ([] : List Nat) 3).empty = true ∧
      (mkVec ([] : List Nat) 3).pop_back = mkVec ([] : List Nat) 3 :=
  ⟨by decide, (c9_pop_back_empty_noop (mkVec ([] : List Nat) 3) (by decide)).1⟩

/-- C5: erase(first, last) with a valid range removes exactly those elements
by shifting the tail backward: the remaining elements keep their original
relative order, the size decreases by last - first, and the capacity is
unchanged (erase never deallocates or reallocates). -/
theorem c5_erase_range (v : Vec α) (L : List α) (f l : Nat)
    (h : Rep v L) (hf : f ≤ l) (hl : l ≤ v.size) :
    Rep (v.erase f l) (L.take f ++ L.drop l) ∧
      (v.erase f l).size = v.size - (l - f) ∧
      (v.erase f l).capacity = v.capacity :=
  ⟨Vec.erase_rep h hf hl, Vec.erase_size hf hl, Vec.erase_capacity⟩

/-- Witness for C5 at the spec's concrete scenario 2: erasing [begin+1,
begin+3) from [1,2,3,4,5] leaves [1,4,5] with size 3 and the capacity
untouched. -/
theorem c5_erase_range_witness :
    Rep ((mkVec ([1,2,3,4,5] : List Nat) 0).erase 1 3) [1,4,5] ∧
      ((mkVec ([1,2,3,4,5] : List Nat) 0).erase 1 3).size = 3 ∧
      ((mkVec ([1,2,3,4,5] : List Nat) 0).erase 1 3).capacity = 5 := by
  have h := c5_erase_range (mkVec ([1,2,3,4,5] : List Nat) 0) [1,2,3,4,5] 1 3
    (mkVec_rep _ _) (by decide) (by decide)
  have e1 : List.take 1 ([1,2,3,4,5] : List Nat) ++ List.drop 3 [1,2,3,4,5] = [1,4,5] := rfl
  exact ⟨e1 ▸ h.1, h.2.1.trans (by decide), h.2.2.trans (by decide)⟩

/-- C4: next_capacity maps 0 to 2 and every other capacity c to 2c, and
push_back on a full vector of size 4 and capacity 4 yields size 5 and
capacity exactly 8, the previous elements preserved in order with the pushed
value appended.  The simple flag is the use_simple_insert trait; both paths
produce the same sequence. -/
theorem c4_next_capacity_push_back (simple : Bool) (v : Vec α) (L : List α) (x : α)
    (h : Rep v L) (hsz : v.size = 4) (hcap : v.capacity = 4) :
    (∀ c : Nat, Vec.next_capacity c = if c = 0 then 2 else 2 * c) ∧
    Rep (v.push_back simple x) (L ++ [x]) ∧
    (v.push_back simple x).size = 5 ∧
    (v.push_back simple x).capacity = 8 := by
  refine ⟨?_, Vec.emplace_back_internal_rep h, ?_, ?_⟩
  · intro c
    unfold Vec.next_capacity
    by_cases hc : c = 0
    · rw [if_neg (by simp [hc]), if_pos hc]
    · rw [if_pos hc, if_neg hc, Nat.mul_comm]
  · show (v.emplace_back_internal simple x).size = 5
    rw [Vec.emplace_back_internal_size, hsz]
  · show (v.emplace_back_internal simple x).capacity = 8
    rw [Vec.emplace_back_internal_capacity, hsz, hcap, if_pos rfl]
    decide

theorem c4_next_capacity_push_back_witness :
    Rep ((mkVec ([10,20,30,40] : List Nat) 0).push_back true 5) [10,20,30,40,5] ∧
      ((mkVec ([10,20,30,40] : List Nat) 0).push_back true 5).size = 5 ∧
      ((mkVec ([10,20,30,40] : List Nat) 0).push_back true 5).capacity = 8 := by
  have h := c4_next_capacity_push_back true (mkVec ([10,20,30,40] : List Nat) 0)
    [10,20,30,40] 5 (mkVec_rep _ _) (by decide) (by decide)
  have e1 : ([10,20,30,40] : List Nat) ++ [5] = [10,20,30,40,5] := rfl
  exact ⟨e1 ▸ h.2.1, h.2.2.1, h.2.2.2⟩

/-- C3 counterexample: on the vector [1,2,3,4] with size 4 and capacity 4,
make_gap_n(begin+2, 1) must reallocate; the claim predicts capacity
best_capacity(4+1) = max(5, next_capacity(4)) = 8, but the code allocates
next_capacity(4+1) = 10. -/
theorem c3_make_gap_capacity_counterexample :
    ((mkVec ([1,2,3,4] : List Nat) 0).make_gap_n 2 1).fst.capacity ≠
      (mkVec ([1,2,3,4] : List Nat) 0).best_capacity
        ((mkVec ([1,2,3,4] : List Nat) 0).size + 1) := by decide

/-- C3 (amended): whenever make_gap_n(position, count) needs a new buffer
(size + count > capacity), the new buffer's capacity equals
next_capacity(size + count) = 2 * (size + count), and the elements before
and after the position are preserved in order around an uninitialised gap
of count slots. -/
theorem c3_make_gap_n_realloc (v : Vec α) (P S : List α) (n : Nat)
    (h : Rep v (P ++ S)) (hn : 1 ≤ n) (hc : v.size + n > v.capacity) :
    (v.make_gap_n P.length n).fst.capacity = Vec.next_capacity (v.size + n) ∧
    Vec.next_capacity (v.size + n) = 2 * (v.size + n) ∧
    (v.make_gap_n P.length n).fst.size = v.size + n ∧
    (v.make_gap_n P.length n).snd.fst = P.length ∧
    (v.make_gap_n P.length n).fst.data.take (v.size + n) =
      P.map some ++ List.replicate n none ++ S.map some := by
  have hszl : v.size = P.length + S.length := by
    have := h.size_eq
    simpa using this
  have hp : P.length ≤ v.size := by omega
  obtain ⟨hgap, hsize, hcap, hpre, hsuf⟩ := Vec.make_gap_n_spec hp hn
  have hnone := Vec.make_gap_n_gap_none hp hc
  rw [if_pos hc] at hcap
  refine ⟨hcap, ?_, hsize, hgap, ?_⟩
  · unfold Vec.next_capacity
    rw [if_pos (by omega)]
    omega
  · have hlen : (P.map some ++ List.replicate n (none : Option α) ++ S.map some).length
        = v.size + n := by
      simp only [List.length_append, List.length_map, List.length_replicate]
      omega
    rw [← hlen]
    apply take_eq_slots
    · show _ ≤ (v.make_gap_n P.length n).fst.capacity
      rw [hlen, hcap]
      have := Vec.le_next_capacity (v.size + n)
      omega
    · rw [hlen]
      intro j hj
      rw [read_append3_slots]
      by_cases h1 : j < P.length
      · rw [if_pos h1, hpre j h1, h.read_eq j (by omega), List.getElem?_append]
        rw [if_pos h1]
      · rw [if_neg h1]
        by_cases h2 : j < P.length + n
        · rw [if_pos h2]
          exact hnone j (by omega) (by omega)
        · rw [if_neg h2, hsuf j (by omega) (by omega), h.read_eq (j - n) (by omega),
            List.getElem?_append]
          rw [if_neg (by omega)]
          congr 1
          omega

theorem c3_make_gap_n_realloc_witness :
    ((mkVec ([1,2,3,4] : List Nat) 0).make_gap_n 2 1).fst.capacity = 10 ∧
      ((mkVec ([1,2,3,4] : List Nat) 0).make_gap_n 2 1).fst.data.take 5 =
        ([1,2] : List Nat).map some ++ List.replicate 1 none ++ ([3,4] : List Nat).map some := by
  have h := c3_make_gap_n_realloc (mkVec ([1,2,3,4] : List Nat) 0) [1,2] [3,4] 1
    (mkVec_rep _ _) (by decide) (by decide)
  exact ⟨h.1.trans (by decide), h.2.2.2.2⟩

/-- C7: evaluation of the relational operators at a = [] and b = [5].  The
code's operator> computes !(b <= a) and operator>= computes !(b < a), with
the arguments the wrong way round for the claimed dualities: here a > b and
a >= b both return true although b < a is false and a < b is true, so
a > b ⇔ b < a and a >= b ⇔ not (a < b) both fail; the duality
a <= b ⇔ not (b < a) does hold here (and in general). -/
theorem c7_order_duality_failure :
    vector_gt ([] : List Nat) [5] = true ∧
    vector_lt [5] ([] : List Nat) = false ∧
    vector_ge ([] : List Nat) [5] = true ∧
    vector_lt ([] : List Nat) [5] = true ∧
    vector_le ([] : List Nat) [5] = !(vector_lt [5] ([] : List Nat)) ∧
    vector_eq ([] : List Nat) [5] = false := by decide

/-- C10: v.insert(end(), 0, x) on the non-full vector [10] is not a no-op.
The code appends the exemplar once (the slot after the live range receives
7), then the unsigned `--count` wraps to 2^64 - 1 and the size cursor is
advanced by that wrapped count instead of staying put (in C++ the
corresponding construct_n loop writes far past the allocation). -/
theorem c10_insert_zero_not_noop :
    ((mkVec ([10] : List Nat) 1).insert_n true 1 0 7).size =
        (mkVec ([10] : List Nat) 1).size + 1 + (WSIZE - 1) ∧
      ((mkVec ([10] : List Nat) 1).insert_n true 1 0 7).size ≠
        (mkVec ([10] : List Nat) 1).size ∧
      read ((mkVec ([10] : List Nat) 1).insert_n true 1 0 7).data 1 = some 7 := by
  decide

/-- Reading a position of an element sequence with one value inserted at
`pos`. -/
theorem getElem?_insert_mid {L : List α} {x : α} {pos j : Nat} (hpos : pos ≤ L.length) :
    (L.take pos ++ x :: L.drop pos)[j]? =
      if j < pos then L[j]? else if j = pos then some x else L[j - 1]? := by
  rw [List.getElem?_append]
  simp only [List.length_take]
  by_cases h1 : j < pos
  · rw [if_pos (by omega), if_pos h1, List.getElem?_take, if_pos h1]
  · rw [if_neg (by omega), if_neg h1]
    by_cases h2 : j = pos
    · rw [if_pos h2, h2]
      have h3 : pos - min pos L.length = 0 := by omega
      rw [h3, List.getElem?_cons_zero]
    · rw [if_neg h2]
      have h3 : j - min pos L.length = (j - pos - 1) + 1 := by omega
      rw [h3, List.getElem?_cons_succ, List.getElem?_drop]
      congr 1
      omega

namespace Vec

theorem make_gap_1_spec {v : Vec α} {p : Nat}
    (hp : p ≤ v.size) (hsz : v.size ≤ v.capacity) :
    (v.make_gap_1 p).snd = p ∧
    (v.make_gap_1 p).fst.size = v.size + 1 ∧
    (v.make_gap_1 p).fst.capacity =
      (if v.size = v.capacity then next_capacity v.capacity else v.capacity) ∧
    (∀ j, j < p → read (v.make_gap_1 p).fst.data j = read v.data j) ∧
    (∀ j, p + 1 ≤ j → j < v.size + 1 →
      read (v.make_gap_1 p).fst.data j = read v.data (j - 1)) := by
  unfold make_gap_1
  by_cases hc : v.size = v.capacity
  · rw [if_pos hc]
    simp only [if_pos hc]
    have hlt : v.capacity < next_capacity v.capacity := lt_next_capacity _
    have hlen1 : (blit (allocate α (next_capacity v.capacity)) 0 v.data 0 p).fst.length
        = next_capacity v.capacity := by
      rw [blit_length]
      simp [allocate]
    have hr1 : (blit (allocate α (next_capacity v.capacity)) 0 v.data 0 p).snd = p := by
      rw [blit_snd]
      omega
    refine ⟨hr1, ?_, ?_, ?_, ?_⟩
    · show (blit _ (_ + 1) v.data p v.size).snd = v.size + 1
      rw [blit_snd, hr1]
      omega
    · show (blit _ (_ + 1) v.data p v.size).fst.length = _
      rw [blit_length, hlen1]
    · intro j hj
      show read (blit _ (_ + 1) v.data p v.size).fst j = _
      rw [hr1, blit_read (by rw [hlen1]; omega), if_neg (by omega),
        blit_read (by simp [allocate]; omega), if_pos (by omega)]
      congr 1
      omega
    · intro j hj1 hj2
      show read (blit _ (_ + 1) v.data p v.size).fst j = _
      rw [hr1, blit_read (by rw [hlen1]; omega), if_pos (by omega)]
      congr 1
      omega
  · rw [if_neg hc]
    refine ⟨rfl, rfl, ?_, ?_, ?_⟩
    · rw [if_neg hc]
      show (move_loop v.data p 1 v.size).length = _
      exact move_loop_length
    · intro j hj
      have hcd : v.capacity = v.data.length := rfl
      show read (move_loop v.data p 1 v.size) j = _
      rw [move_loop_read hp (by omega) (by show v.size + 1 ≤ v.data.length; omega),
        if_neg (by omega)]
    · intro j hj1 hj2
      have hcd : v.capacity = v.data.length := rfl
      show read (move_loop v.data p 1 v.size) j = _
      rw [move_loop_read hp (by omega) (by show v.size + 1 ≤ v.data.length; omega),
        if_pos (by omega)]

end Vec

/-- Inserting the vector's own element at offset `i` by reference produces
the original sequence with that element's old value spliced in at `pos`. -/
theorem insert_ref_rep (simple : Bool) (v : Vec α) (L : List α)
    (pos i : Nat) (x : α) (h : Rep v L) (hx : L[i]? = some x) (hpos : pos ≤ v.size) :
    Rep (v.insert_ref simple pos i) (L.take pos ++ x :: L.drop pos) ∧
      (v.insert_ref simple pos i).size = v.size + 1 := by
  have hszL : v.size = L.length := h.size_eq
  have hi : i < v.size := by
    by_contra hcon
    rw [List.getElem?_eq_none (by omega)] at hx
    exact Option.noConfusion hx
  have hread_i : read v.data i = some x := by rw [h.read_eq i hi, hx]
  have hM : ∀ j, j < v.size + 1 →
      (L.take pos ++ x :: L.drop pos)[j]? =
        (if j < pos then L[j]? else if j = pos then some x else L[j - 1]?) := by
    intro j hj
    exact getElem?_insert_mid (by omega)
  have hMlen : (L.take pos ++ x :: L.drop pos).length = v.size + 1 := by
    simp only [List.length_append, List.length_take, List.length_cons, List.length_drop]
    omega
  unfold Vec.insert_ref
  by_cases hend : pos = v.size
  · rw [if_pos hend]
    have heq : v.emplace_back_internal_ref simple i = v.emplace_back_internal simple x := by
      unfold Vec.emplace_back_internal_ref Vec.emplace_back_internal
      rw [hread_i]
    rw [heq]
    have hrep := @Vec.emplace_back_internal_rep α simple v L x h
    have hlist : L.take pos ++ x :: L.drop pos = L ++ [x] := by
      subst hend
      rw [hszL, List.take_length, List.drop_length]
    rw [hlist]
    exact ⟨hrep, Vec.emplace_back_internal_size⟩
  · rw [if_neg hend]
    have hpos' : pos < v.size := by omega
    unfold Vec.emplace_internal_ref
    by_cases hsimp : simple = true ∨ v.size ≠ v.capacity
    case pos =>
      rw [if_pos hsimp]
      obtain ⟨hgap, hsize1, hcap1, hpre, hsuf⟩ := Vec.make_gap_1_spec (Nat.le_of_lt hpos') h.1
      have hcap_ge : v.size + 1 ≤ (v.make_gap_1 pos).fst.capacity := by
        rw [hcap1]
        by_cases hfull : v.size = v.capacity
        · rw [if_pos hfull]
          have := Vec.lt_next_capacity v.capacity
          omega
        · rw [if_neg hfull]
          have := h.1
          omega
      have hdlen : (v.make_gap_1 pos).fst.data.length = (v.make_gap_1 pos).fst.capacity := rfl
      refine ⟨Rep.of_read ?_ ?_ ?_, ?_⟩
      · show (v.make_gap_1 pos).fst.size ≤
          ((v.make_gap_1 pos).fst.data.set (v.make_gap_1 pos).snd (read v.data i)).length
        rw [List.length_set, hsize1]
        omega
      · show (v.make_gap_1 pos).fst.size = _
        rw [hMlen]
        exact hsize1
      · show ∀ j, j < (v.make_gap_1 pos).fst.size →
          read ((v.make_gap_1 pos).fst.data.set (v.make_gap_1 pos).snd (read v.data i)) j =
            (L.take pos ++ x :: L.drop pos)[j]?
        rw [hsize1]
        intro j hj
        rw [hM j hj, hgap, hread_i]
        by_cases h1 : j < pos
        · rw [read_set_ne _ (by omega), if_pos h1, hpre j h1, h.read_eq j (by omega)]
        · by_cases h2 : j = pos
          · subst h2
            rw [read_set_self _ (by omega), if_neg (by omega), if_pos rfl]
          · rw [read_set_ne _ (by omega), if_neg h1, if_neg h2,
              hsuf j (by omega) (by omega), h.read_eq (j - 1) (by omega)]
      · exact hsize1
    case neg =>
      have h2 : v.size = v.capacity := by
        by_contra hne
        exact hsimp (Or.inr hne)
      rw [if_neg hsimp]
      have hnext : v.size + 1 ≤ Vec.next_capacity v.capacity := by
        have := Vec.lt_next_capacity v.capacity
        omega
      have hlen0 : ((allocate α v.next_capacity0).set pos (read v.data i)).length
          = Vec.next_capacity v.capacity := by
        rw [List.length_set]
        simp [allocate, Vec.next_capacity0]
      have hlen1 : (blit ((allocate α v.next_capacity0).set pos (read v.data i)) 0
          v.data 0 pos).fst.length = Vec.next_capacity v.capacity := by
        rw [blit_length, hlen0]
      have hr1 : (blit ((allocate α v.next_capacity0).set pos (read v.data i)) 0
          v.data 0 pos).snd = pos := by
        rw [blit_snd]
        omega
      have hsize2 : (blit (blit ((allocate α v.next_capacity0).set pos (read v.data i)) 0
          v.data 0 pos).fst (pos + 1) v.data pos v.size).snd = v.size + 1 := by
        rw [blit_snd]
        omega
      refine ⟨Rep.of_read ?_ ?_ ?_, hsize2⟩
      · show (blit (blit ((allocate α v.next_capacity0).set pos (read v.data i)) 0
            v.data 0 pos).fst (pos + 1) v.data pos v.size).snd ≤
          (blit (blit ((allocate α v.next_capacity0).set pos (read v.data i)) 0
            v.data 0 pos).fst (pos + 1) v.data pos v.size).fst.length
        rw [hsize2, blit_length, hlen1]
        omega
      · show (blit (blit ((allocate α v.next_capacity0).set pos (read v.data i)) 0
            v.data 0 pos).fst (pos + 1) v.data pos v.size).snd = _
        rw [hsize2, hMlen]
      · show ∀ j, j < (blit (blit ((allocate α v.next_capacity0).set pos (read v.data i)) 0
            v.data 0 pos).fst (pos + 1) v.data pos v.size).snd →
          read (blit (blit ((allocate α v.next_capacity0).set pos (read v.data i)) 0
            v.data 0 pos).fst (pos + 1) v.data pos v.size).fst j =
            (L.take pos ++ x :: L.drop pos)[j]?
        rw [hsize2]
        intro j hj
        rw [hM j hj]
        rw [blit_read (by rw [hlen1]; omega)]
        by_cases hc1 : j < pos
        · rw [if_neg (by omega), blit_read (by rw [hlen0]; omega), if_pos (by omega),
            if_pos hc1]
          have he : read v.data (0 + (j - 0)) = read v.data j := by congr 1; omega
          rw [he, h.read_eq j (by omega)]
        · by_cases hc2 : j = pos
          · subst hc2
            rw [if_neg (by omega), blit_read (by rw [hlen0]; omega), if_neg (by omega),
              read_set_self _ (by simp [allocate, Vec.next_capacity0]; omega),
              if_neg (by omega), if_pos rfl, hread_i]
          · rw [if_pos (by omega), if_neg hc1, if_neg hc2]
            have he : read v.data (pos + (j - (pos + 1))) = read v.data (j - 1) := by
              congr 1
              omega
            rw [he, h.read_eq (j - 1) (by omega)]

/-- C2: inserting v[i] by reference at any valid position j of v yields the
sequence of v with the old value of v[i] inserted at position j, even when
the insertion shifts or reallocates the storage holding v[i]: the simple
path captures the value in a temporary before any shifting, and the complex
path constructs it into the new buffer before the old elements move. -/
theorem c2_self_referential_insert (simple : Bool) (v : Vec α) (L : List α)
    (pos i : Nat) (x : α) (h : Rep v L) (hx : L[i]? = some x) (hpos : pos ≤ v.size) :
    Rep (v.insert_ref simple pos i) (L.take pos ++ x :: L.drop pos) ∧
      (v.insert_ref simple pos i).size = v.size + 1 :=
  insert_ref_rep simple v L pos i x h hx hpos

/-- Witness for C2: v = [1,2,3] full at capacity 3; v.insert(v.begin(),
v.back()) gives [3,1,2,3]. -/
theorem c2_self_referential_insert_witness :
    Rep ((mkVec ([1,2,3] : List Nat) 0).insert_ref true 0 2) [3,1,2,3] ∧
      ((mkVec ([1,2,3] : List Nat) 0).insert_ref true 0 2).size = 4 := by
  have h := c2_self_referential_insert true (mkVec ([1,2,3] : List Nat) 0) [1,2,3]
    0 2 3 (mkVec_rep _ _) (by decide) (by decide)
  have e1 : List.take 0 ([1,2,3] : List Nat) ++ 3 :: List.drop 0 [1,2,3] = [3,1,2,3] := rfl
  exact ⟨e1 ▸ h.1, h.2⟩

/-- Writing a slot's own current value back leaves the allocation unchanged. -/
theorem set_read_self {a : Slots α} {i : Nat} : a.set i (read a i) = a := by
  apply List.ext_getElem?
  intro j
  by_cases h1 : j = i
  · subst h1
    by_cases h2 : j < a.length
    · rw [getElem?_eq_read (by simpa using h2), read_set_self _ h2, getElem?_eq_read h2]
    · rw [List.getElem?_eq_none (by simp; omega), List.getElem?_eq_none (by omega)]
  · rw [List.getElem?_set_ne (by omega)]

/-- A shift by zero slots rewrites every touched slot with its own value. -/
theorem move_loopGo_zero {a : Slots α} {p k : Nat} : move_loopGo a p 0 k = a := by
  induction k generalizing a with
  | zero => rfl
  | succ k ih =>
    rw [move_loopGo]
    have h1 : p + k + 0 = p + k := by omega
    rw [h1, set_read_self, ih]

/-- Reading a position of an element sequence with a range spliced in at
`pos` in place of nothing. -/
theorem getElem?_splice {L xs : List α} {pos j : Nat} (hpos : pos ≤ L.length) :
    (L.take pos ++ xs ++ L.drop pos)[j]? =
      if j < pos then L[j]?
      else if j < pos + xs.length then xs[j - pos]?
      else L[j - xs.length]? := by
  rw [getElem?_append3]
  simp only [List.length_take]
  by_cases h1 : j < pos
  · rw [if_pos (by omega), if_pos h1, List.getElem?_take, if_pos h1]
  · rw [if_neg (by omega), if_neg h1]
    by_cases h2 : j < pos + xs.length
    · rw [if_pos (by omega), if_pos h2]
      congr 1
      omega
    · rw [if_neg (by omega), if_neg h2, List.getElem?_drop]
      congr 1
      omega

namespace Vec

theorem insert_range_fwd_rep {v : Vec α} {L xs : List α} {pos : Nat}
    (h : Rep v L) (hpos : pos ≤ v.size) :
    Rep (v.insert_range_fwd pos xs) (L.take pos ++ xs ++ L.drop pos) := by
  have hszL : v.size = L.length := h.size_eq
  have hMlen : (L.take pos ++ xs ++ L.drop pos).length = v.size + xs.length := by
    simp only [List.length_append, List.length_take, List.length_drop]
    omega
  have hM : ∀ j, (L.take pos ++ xs ++ L.drop pos)[j]? =
      (if j < pos then L[j]? else if j < pos + xs.length then xs[j - pos]?
       else L[j - xs.length]?) := by
    intro j
    exact getElem?_splice (by omega)
  have hcd : v.capacity = v.data.length := rfl
  unfold insert_range_fwd
  by_cases hc : v.size + xs.length ≤ v.capacity
  · rw [if_pos hc]
    have hmv_len : (v.move_forward_n pos xs.length).fst.data.length = v.data.length := by
      show (move_loop v.data pos xs.length v.size).length = v.data.length
      exact move_loop_length
    have hread_mv : ∀ j, read (v.move_forward_n pos xs.length).fst.data j =
        (if pos + xs.length ≤ j ∧ j < v.size + xs.length then read v.data (j - xs.length)
         else read v.data j) := by
      intro j
      rcases Nat.eq_zero_or_pos xs.length with h0 | h0
      · show read (move_loop v.data pos xs.length v.size) j = _
        unfold move_loop
        rw [h0, move_loopGo_zero]
        by_cases hj : pos + 0 ≤ j ∧ j < v.size + 0
        · rw [if_pos hj]
          exact congrArg (read v.data) (by omega)
        · rw [if_neg hj]
      · exact move_forward_n_read hpos h0 (by show v.size + xs.length ≤ v.data.length; omega) j
    refine Rep.of_read ?_ ?_ ?_
    · show (v.move_forward_n pos xs.length).fst.size ≤ (writeList _ pos xs).length
      rw [writeList_length, hmv_len, move_forward_n_fst_size]
      omega
    · show (v.move_forward_n pos xs.length).fst.size = _
      rw [move_forward_n_fst_size, hMlen]
    · show ∀ j, j < (v.move_forward_n pos xs.length).fst.size → _
      rw [move_forward_n_fst_size]
      intro j hj
      rw [hM j, writeList_read (by rw [hmv_len]; omega)]
      by_cases h1 : j < pos
      · rw [if_neg (show ¬(pos ≤ j ∧ j < pos + xs.length) by omega), hread_mv j,
          if_neg (show ¬(pos + xs.length ≤ j ∧ j < v.size + xs.length) by omega),
          h.read_eq j (by omega), if_pos h1]
      · by_cases h2 : j < pos + xs.length
        · rw [if_pos (show pos ≤ j ∧ j < pos + xs.length by omega), if_neg h1, if_pos h2]
        · rw [if_neg (show ¬(pos ≤ j ∧ j < pos + xs.length) by omega), hread_mv j,
            if_pos (show pos + xs.length ≤ j ∧ j < v.size + xs.length by omega),
            h.read_eq (j - xs.length) (by omega), if_neg h1, if_neg h2]
  · rw [if_neg hc]
    have hbest : v.size + xs.length ≤ v.best_capacity (v.size + xs.length) := Nat.le_max_left _ _
    have hlen1 : (blit (allocate α (v.best_capacity (v.size + xs.length)))
        0 v.data 0 pos).fst.length = v.best_capacity (v.size + xs.length) := by
      rw [blit_length]
      simp [allocate]
    have hlen2 : (writeList (blit (allocate α (v.best_capacity (v.size + xs.length)))
        0 v.data 0 pos).fst pos xs).length = v.best_capacity (v.size + xs.length) := by
      rw [writeList_length, hlen1]
    have hsnd : (blit (writeList (blit (allocate α (v.best_capacity (v.size + xs.length)))
        0 v.data 0 pos).fst pos xs) (pos + xs.length) v.data pos v.size).snd
        = v.size + xs.length := by
      rw [blit_snd]
      omega
    refine Rep.of_read ?_ ?_ ?_
    · show (blit _ (pos + xs.length) v.data pos v.size).snd ≤
        (blit _ (pos + xs.length) v.data pos v.size).fst.length
      rw [hsnd, blit_length, hlen2]
      omega
    · show (blit _ (pos + xs.length) v.data pos v.size).snd = _
      rw [hsnd, hMlen]
    · show ∀ j, j < (blit _ (pos + xs.length) v.data pos v.size).snd → _
      rw [hsnd]
      intro j hj
      rw [hM j, blit_read (by rw [hlen2]; omega)]
      by_cases h1 : j < pos
      · rw [if_neg (show ¬(pos + xs.length ≤ j ∧
              j < pos + xs.length + (v.size - pos)) by omega),
          writeList_read (by rw [hlen1]; omega),
          if_neg (show ¬(pos ≤ j ∧ j < pos + xs.length) by omega),
          blit_read (by simp [allocate]; omega),
          if_pos (show 0 ≤ j ∧ j < 0 + (pos - 0) by omega)]
        have he : read v.data (0 + (j - 0)) = read v.data j := by congr 1; omega
        rw [he, h.read_eq j (by omega), if_pos h1]
      · by_cases h2 : j < pos + xs.length
        · rw [if_neg (show ¬(pos + xs.length ≤ j ∧
                j < pos + xs.length + (v.size - pos)) by omega),
            writeList_read (by rw [hlen1]; omega),
            if_pos (show pos ≤ j ∧ j < pos + xs.length by omega), if_neg h1, if_pos h2]
        · rw [if_pos (show pos + xs.length ≤ j ∧
              j < pos + xs.length + (v.size - pos) by omega)]
          have he : read v.data (pos + (j - (pos + xs.length))) =
              read v.data (j - xs.length) := by
            congr 1
            omega
          rw [he, h.read_eq (j - xs.length) (by omega), if_neg h1, if_neg h2]

theorem append_range_fwd_rep {v : Vec α} {L xs : List α} (h : Rep v L) :
    Rep (v.append_range_fwd xs) (L ++ xs) := by
  have hszL : v.size = L.length := h.size_eq
  have hres : Rep (v.reserve (v.size + xs.length)) L := reallocate_rep h
  have hrsz : (v.reserve (v.size + xs.length)).size = v.size := reallocate_size
  have hrcap : v.size + xs.length ≤ (v.reserve (v.size + xs.length)).capacity := by
    show v.size + xs.length ≤ (v.reallocate (v.size + xs.length)).capacity
    rw [reallocate_capacity]
    omega
  refine Rep.of_read ?_ ?_ ?_
  · show (v.reserve (v.size + xs.length)).size + xs.length ≤ (writeList _ _ xs).length
    rw [writeList_length, hrsz]
    exact hrcap
  · show (v.reserve (v.size + xs.length)).size + xs.length = _
    rw [hrsz]
    simp [hszL]
  · show ∀ j, j < (v.reserve (v.size + xs.length)).size + xs.length → _
    rw [hrsz]
    intro j hj
    have hrcd : (v.reserve (v.size + xs.length)).capacity
        = (v.reserve (v.size + xs.length)).data.length := rfl
    show read (writeList (v.reserve (v.size + xs.length)).data
        (v.reserve (v.size + xs.length)).size xs) j = (L ++ xs)[j]?
    rw [writeList_read (by rw [hrsz]; omega)]
    rw [hrsz]
    by_cases h1 : j < v.size
    · rw [if_neg (by omega), hres.read_eq j (by rw [hrsz]; omega),
        List.getElem?_append]
      rw [if_pos (by omega)]
    · rw [if_pos (by omega), List.getElem?_append_right (by omega)]
      congr 1
      omega

theorem insert_list_rep {v : Vec α} {L xs : List α} {pos : Nat}
    (h : Rep v L) (hpos : pos ≤ v.size) :
    Rep (v.insert_list pos xs) (L.take pos ++ xs ++ L.drop pos) := by
  have hszL : v.size = L.length := h.size_eq
  unfold insert_list
  by_cases hend : pos = v.size
  · rw [if_pos hend]
    have hlist : L.take pos ++ xs ++ L.drop pos = L ++ xs := by
      subst hend
      rw [hszL, List.take_length, List.drop_length, List.append_nil]
    rw [hlist]
    exact append_range_fwd_rep h
  · rw [if_neg hend]
    exact insert_range_fwd_rep h hpos

theorem erase_internal_capacity {v : Vec α} {f l : Nat} :
    (v.erase_internal f l).capacity = v.capacity := by
  show (blitSelf v.data f l v.size).fst.length = v.data.length
  exact blitSelf_length

theorem erase_internal_size {v : Vec α} {f l : Nat} (hf : f ≤ l) (hl : l ≤ v.size) :
    (v.erase_internal f l).size = v.size - (l - f) := by
  show (blitSelf v.data f l v.size).snd = _
  rw [blitSelf_snd]
  omega

theorem erase_internal_rep {v : Vec α} {L : List α} {f l : Nat}
    (h : Rep v L) (hf : f ≤ l) (hl : l ≤ v.size) :
    Rep (v.erase_internal f l) (L.take f ++ L.drop l) := by
  have hszL : v.size = L.length := h.size_eq
  refine Rep.of_read ?_ ?_ ?_
  · rw [erase_internal_size hf hl]
    show _ ≤ (v.erase_internal f l).capacity
    rw [erase_internal_capacity]
    have := h.1
    omega
  · rw [erase_internal_size hf hl]
    simp only [List.length_append, List.length_take, List.length_drop]
    omega
  · rw [erase_internal_size hf hl]
    intro j hj
    show read (blitSelf v.data f l v.size).fst j = _
    rw [blitSelf_read hf hl h.size_le j, List.getElem?_append]
    simp only [List.length_take]
    by_cases h1 : j < f
    · rw [if_neg (by omega), if_pos (by omega), List.getElem?_take, if_pos h1,
        h.read_eq j (by omega)]
    · rw [if_pos (by omega), if_neg (by omega), List.getElem?_drop,
        h.read_eq (l + (j - f)) (by omega)]
      congr 1
      omega

theorem do_replace_range_fwd_rep {v : Vec α} {L xs : List α} {f l : Nat}
    (h : Rep v L) (hfl : f ≤ l) (hl : l ≤ v.size) :
    Rep (v.do_replace_range_fwd f l xs) (L.take f ++ xs ++ L.drop l) := by
  have hszL : v.size = L.length := h.size_eq
  have hcd : v.capacity = v.data.length := rfl
  have hvc : v.size ≤ v.capacity := h.1
  have hM : ∀ j, (L.take f ++ xs ++ L.drop l)[j]? =
      (if j < f then L[j]? else if j < f + xs.length then xs[j - f]?
       else L[l + (j - f - xs.length)]?) := by
    intro j
    rw [getElem?_append3]
    simp only [List.length_take]
    by_cases h1 : j < f
    · rw [if_pos (by omega), if_pos h1, List.getElem?_take, if_pos h1]
    · rw [if_neg (by omega), if_neg h1]
      by_cases h2 : j < f + xs.length
      · rw [if_pos (by omega), if_pos h2]
        congr 1
        omega
      · rw [if_neg (by omega), if_neg h2, List.getElem?_drop]
        congr 1
        omega
  have hMlen : (L.take f ++ xs ++ L.drop l).length = v.size - (l - f) + xs.length := by
    simp only [List.length_append, List.length_take, List.length_drop]
    omega
  unfold do_replace_range_fwd
  by_cases hc1 : xs.length ≤ l - f
  · rw [if_pos hc1]
    have hw1 : ∀ j, read (writeList v.data f xs) j =
        (if f ≤ j ∧ j < f + xs.length then xs[j - f]? else read v.data j) :=
      writeList_read (by omega)
    have hW : (⟨writeList v.data f xs, v.size⟩ : Vec α).size = v.size := rfl
    have hle1 : f + xs.length ≤ l := by omega
    have hle2 : l ≤ (⟨writeList v.data f xs, v.size⟩ : Vec α).size := by rw [hW]; omega
    refine Rep.of_read ?_ ?_ ?_
    · rw [erase_internal_size hle1 hle2, hW]
      show _ ≤ (Vec.erase_internal ⟨writeList v.data f xs, v.size⟩ (f + xs.length) l).capacity
      rw [erase_internal_capacity]
      show _ ≤ (writeList v.data f xs).length
      rw [writeList_length]
      omega
    · rw [erase_internal_size hle1 hle2, hW, hMlen]
      omega
    · rw [erase_internal_size hle1 hle2, hW]
      intro j hj
      show read (blitSelf (writeList v.data f xs) (f + xs.length) l v.size).fst j = _
      rw [blitSelf_read hle1 (by omega) (by rw [writeList_length]; omega) j, hM j]
      by_cases h1 : j < f
      · rw [if_neg (show ¬(f + xs.length ≤ j ∧
            j < f + xs.length + (v.size - l)) by omega), hw1 j,
          if_neg (show ¬(f ≤ j ∧ j < f + xs.length) by omega),
          h.read_eq j (by omega), if_pos h1]
      · by_cases h2 : j < f + xs.length
        · rw [if_neg (show ¬(f + xs.length ≤ j ∧
              j < f + xs.length + (v.size - l)) by omega), hw1 j,
            if_pos (show f ≤ j ∧ j < f + xs.length by omega), if_neg h1, if_pos h2]
        · rw [if_pos (show f + xs.length ≤ j ∧
              j < f + xs.length + (v.size - l) by omega),
            hw1 (l + (j - (f + xs.length))),
            if_neg (show ¬(f ≤ l + (j - (f + xs.length)) ∧
              l + (j - (f + xs.length)) < f + xs.length) by omega),
            h.read_eq (l + (j - (f + xs.length))) (by omega),
            if_neg h1, if_neg h2]
          congr 1
          omega
  · rw [if_neg hc1]
    have hins : 1 ≤ xs.length - (l - f) := by omega
    by_cases hc2 : v.size + (xs.length - (l - f)) ≤ v.capacity
    · rw [if_pos hc2]
      have hmv_len : (v.move_forward_n l (xs.length - (l - f))).fst.data.length
          = v.data.length := by
        show (move_loop v.data l _ v.size).length = v.data.length
        exact move_loop_length
      have hread_mv := move_forward_n_read (v := v) hl hins
        (by show v.size + (xs.length - (l - f)) ≤ v.data.length; omega)
      refine Rep.of_read ?_ ?_ ?_
      · show (v.move_forward_n l (xs.length - (l - f))).fst.size ≤ (writeList _ f xs).length
        rw [writeList_length, hmv_len, move_forward_n_fst_size]
        omega
      · show (v.move_forward_n l (xs.length - (l - f))).fst.size = _
        rw [move_forward_n_fst_size, hMlen]
        omega
      · show ∀ j, j < (v.move_forward_n l (xs.length - (l - f))).fst.size → _
        rw [move_forward_n_fst_size]
        intro j hj
        rw [hM j, writeList_read (by rw [hmv_len]; omega)]
        by_cases h1 : j < f
        · rw [if_neg (show ¬(f ≤ j ∧ j < f + xs.length) by omega), hread_mv j,
            if_neg (show ¬(l + (xs.length - (l - f)) ≤ j ∧
              j < v.size + (xs.length - (l - f))) by omega),
            h.read_eq j (by omega), if_pos h1]
        · by_cases h2 : j < f + xs.length
          · rw [if_pos (show f ≤ j ∧ j < f + xs.length by omega), if_neg h1, if_pos h2]
          · rw [if_neg (show ¬(f ≤ j ∧ j < f + xs.length) by omega), hread_mv j,
              if_pos (show l + (xs.length - (l - f)) ≤ j ∧
                j < v.size + (xs.length - (l - f)) by omega),
              h.read_eq (j - (xs.length - (l - f))) (by omega), if_neg h1, if_neg h2]
            congr 1
            omega
    · rw [if_neg hc2]
      have hbest : v.size + (xs.length - (l - f)) ≤
          v.best_capacity (v.size + (xs.length - (l - f))) := Nat.le_max_left _ _
      have hlen1 : (blit (allocate α (v.best_capacity (v.size + (xs.length - (l - f)))))
          0 v.data 0 f).fst.length = v.best_capacity (v.size + (xs.length - (l - f))) := by
        rw [blit_length]
        simp [allocate]
      have hlen2 : (writeList (blit (allocate α (v.best_capacity
          (v.size + (xs.length - (l - f))))) 0 v.data 0 f).fst f xs).length
          = v.best_capacity (v.size + (xs.length - (l - f))) := by
        rw [writeList_length, hlen1]
      have hsnd : (blit (writeList (blit (allocate α (v.best_capacity
          (v.size + (xs.length - (l - f))))) 0 v.data 0 f).fst f xs)
          (f + xs.length) v.data l v.size).snd = v.size - (l - f) + xs.length := by
        rw [blit_snd]
        omega
      refine Rep.of_read ?_ ?_ ?_
      · show (blit _ (f + xs.length) v.data l v.size).snd ≤
          (blit _ (f + xs.length) v.data l v.size).fst.length
        rw [hsnd, blit_length, hlen2]
        omega
      · show (blit _ (f + xs.length) v.data l v.size).snd = _
        rw [hsnd, hMlen]
      · show ∀ j, j < (blit _ (f + xs.length) v.data l v.size).snd → _
        rw [hsnd]
        intro j hj
        rw [hM j, blit_read (by rw [hlen2]; omega)]
        by_cases h1 : j < f
        · rw [if_neg (show ¬(f + xs.length ≤ j ∧
              j < f + xs.length + (v.size - l)) by omega),
            writeList_read (by rw [hlen1]; omega),
            if_neg (show ¬(f ≤ j ∧ j < f + xs.length) by omega),
            blit_read (by simp [allocate]; omega),
            if_pos (show 0 ≤ j ∧ j < 0 + (f - 0) by omega)]
          have he : read v.data (0 + (j - 0)) = read v.data j := by congr 1; omega
          rw [he, h.read_eq j (by omega), if_pos h1]
        · by_cases h2 : j < f + xs.length
          · rw [if_neg (show ¬(f + xs.length ≤ j ∧
                j < f + xs.length + (v.size - l)) by omega),
              writeList_read (by rw [hlen1]; omega),
              if_pos (show f ≤ j ∧ j < f + xs.length by omega), if_neg h1, if_pos h2]
          · rw [if_pos (show f + xs.length ≤ j ∧
                j < f + xs.length + (v.size - l) by omega),
              h.read_eq (l + (j - (f + xs.length))) (by omega), if_neg h1, if_neg h2]
            congr 1
            omega

theorem replace_rep {v : Vec α} {L xs : List α} {f l : Nat}
    (h : Rep v L) (hfl : f ≤ l) (hl : l ≤ v.size) :
    Rep (v.replace f l xs) (L.take f ++ xs ++ L.drop l) := by
  have hszL : v.size = L.length := h.size_eq
  unfold replace
  by_cases h1 : f = l
  · rw [if_pos h1]
    by_cases h2 : xs = []
    · rw [if_neg (by rw [h2]; simp), h2]
      subst h1
      have h4 : L.take f ++ [] ++ L.drop f = L := by
        rw [List.append_nil, List.take_append_drop]
      rw [h4]
      exact h
    · rw [if_pos (by rw [List.isEmpty_eq_false]; exact h2)]
      subst h1
      exact insert_range_fwd_rep h hl
  · rw [if_neg h1]
    by_cases h2 : xs = []
    · rw [if_pos (by rw [h2]; rfl), h2]
      have h3 : L.take f ++ [] ++ L.drop l = L.take f ++ L.drop l := by
        rw [List.append_nil]
      rw [h3]
      exact erase_internal_rep h hfl hl
    · rw [if_neg (by simp [List.isEmpty_iff, h2])]
      exact do_replace_range_fwd_rep h hfl hl

theorem erase_insert_compose_rep {v : Vec α} {L xs : List α} {f l : Nat}
    (h : Rep v L) (hfl : f ≤ l) (hl : l ≤ v.size) :
    Rep ((v.erase f l).insert_list f xs) (L.take f ++ xs ++ L.drop l) := by
  have hszL : v.size = L.length := h.size_eq
  have hw : Rep (v.erase f l) (L.take f ++ L.drop l) := erase_rep h hfl hl
  have hwsz : (v.erase f l).size = v.size - (l - f) := erase_size hfl hl
  have hcomp := @insert_list_rep α (v.erase f l) (L.take f ++ L.drop l) xs f hw (by omega)
  have htake : (L.take f ++ L.drop l).take f = L.take f := by
    apply List.take_left'
    simp only [List.length_take]
    omega
  have hdrop : (L.take f ++ L.drop l).drop f = L.drop l := by
    have hlen : (L.take f).length = f := by
      simp only [List.length_take]
      omega
    exact List.drop_left' hlen
  rw [htake, hdrop] at hcomp
  exact hcomp

end Vec

/-- C6: replace(first1, last1, first2, last2) leaves the vector with the same
element sequence as insert(erase(first1, last1), first2, last2) would: both
produce prefix, replacement elements, suffix in order. -/
theorem c6_replace_refines_insert_erase (v : Vec α) (L xs : List α) (f l : Nat)
    (h : Rep v L) (hfl : f ≤ l) (hl : l ≤ v.size) :
    Rep (v.replace f l xs) (L.take f ++ xs ++ L.drop l) ∧
    Rep ((v.erase f l).insert_list f xs) (L.take f ++ xs ++ L.drop l) ∧
    (v.replace f l xs).data.take (v.replace f l xs).size =
      ((v.erase f l).insert_list f xs).data.take ((v.erase f l).insert_list f xs).size := by
  have h1 := @Vec.replace_rep α v L xs f l h hfl hl
  have h2 := @Vec.erase_insert_compose_rep α v L xs f l h hfl hl
  refine ⟨h1, h2, ?_⟩
  rw [h1.2, h2.2]

/-- Witness for C6 at the spec's concrete scenario 5: replace(begin, begin+2,
single element 9) on [1,2,3] yields [9,3], matching erase-then-insert. -/
theorem c6_replace_refines_insert_erase_witness :
    Rep ((mkVec ([1,2,3] : List Nat) 0).replace 0 2 [9]) [9,3] ∧
      Rep (((mkVec ([1,2,3] : List Nat) 0).erase 0 2).insert_list 0 [9]) [9,3] := by
  have h := c6_replace_refines_insert_erase (mkVec ([1,2,3] : List Nat) 0) [1,2,3] [9]
    0 2 (mkVec_rep _ _) (by decide) (by decide)
  have e1 : List.take 0 ([1,2,3] : List Nat) ++ [9] ++ List.drop 2 [1,2,3] = [9,3] := rfl
  exact ⟨e1 ▸ h.1, e1 ▸ h.2.1⟩

/-- Reading a position of a sequence extended by `count` copies of one
value. -/
theorem getElem?_append_replicate {L : List α} {x : α} {count j : Nat} :
    (L ++ List.replicate count x)[j]? =
      if j < L.length then L[j]?
      else if j < L.length + count then some x else none := by
  rw [List.getElem?_append]
  by_cases h1 : j < L.length
  · rw [if_pos h1, if_pos h1]
  · rw [if_neg h1, if_neg h1, List.getElem?_replicate]
    by_cases h2 : j < L.length + count
    · rw [if_pos (show j - L.length < count by omega), if_pos h2]
    · rw [if_neg (show ¬(j - L.length < count) by omega), if_neg h2]

namespace Vec

theorem emplace_back_n_fill_rep {v2 : Vec α} {M : List α} {c1 : Nat} {x : α}
    (h : Rep v2 M) (hone : 1 ≤ v2.size) (hcap : v2.size + c1 ≤ v2.capacity)
    (hx : M[v2.size - 1]? = some x) :
    Rep (emplace_back_n_fill v2 c1) (M ++ List.replicate c1 x) ∧
      (emplace_back_n_fill v2 c1).size = v2.size + c1 := by
  have hszL : v2.size = M.length := h.size_eq
  have hcd : v2.capacity = v2.data.length := rfl
  have hex : read v2.data (v2.size - 1) = some x := by
    rw [h.read_eq (v2.size - 1) (by omega)]
    exact hx
  refine ⟨Rep.of_read ?_ ?_ ?_, rfl⟩
  · show v2.size + c1 ≤
      (construct_n v2.data v2.size c1 (read v2.data (v2.size - 1))).length
    rw [construct_n_length]
    omega
  · show v2.size + c1 = (M ++ List.replicate c1 x).length
    simp only [List.length_append, List.length_replicate]
    omega
  · intro j hj
    have hj' : j < v2.size + c1 := hj
    show read (construct_n v2.data v2.size c1 (read v2.data (v2.size - 1))) j = _
    rw [construct_n_read (by omega) j, getElem?_append_replicate]
    by_cases h1 : j < v2.size
    · rw [if_neg (show ¬(v2.size ≤ j ∧ j < v2.size + c1) by omega),
        if_pos (show j < M.length by omega)]
      exact h.read_eq j h1
    · rw [if_pos (show v2.size ≤ j ∧ j < v2.size + c1 by omega), hex,
        if_neg (show ¬(j < M.length) by omega),
        if_pos (show j < M.length + c1 by omega)]

theorem emplace_back_n_fill2_rep {v2 : Vec α} {M : List α} {count : Nat} {x : α}
    (h : Rep v2 M) (hcap : v2.size + count ≤ v2.capacity) :
    Rep (emplace_back_n_fill2 v2 count x) (M ++ List.replicate count x) ∧
      (emplace_back_n_fill2 v2 count x).size = v2.size + count := by
  have hszL : v2.size = M.length := h.size_eq
  have hcd : v2.capacity = v2.data.length := rfl
  refine ⟨Rep.of_read ?_ ?_ ?_, rfl⟩
  · show v2.size + count ≤ (construct_n v2.data v2.size count (some x)).length
    rw [construct_n_length]
    omega
  · show v2.size + count = (M ++ List.replicate count x).length
    simp only [List.length_append, List.length_replicate]
    omega
  · intro j hj
    have hj' : j < v2.size + count := hj
    show read (construct_n v2.data v2.size count (some x)) j = _
    rw [construct_n_read (by omega) j, getElem?_append_replicate]
    by_cases h1 : j < v2.size
    · rw [if_neg (show ¬(v2.size ≤ j ∧ j < v2.size + count) by omega),
        if_pos (show j < M.length by omega)]
      exact h.read_eq j h1
    · rw [if_pos (show v2.size ≤ j ∧ j < v2.size + count by omega),
        if_neg (show ¬(j < M.length) by omega),
        if_pos (show j < M.length + count by omega)]

theorem emplace_back_n_notfull_rep {v1 : Vec α} {M : List α} {c1 : Nat} {x : α}
    (h : Rep v1 M) (hone : 1 ≤ v1.size) (hw : v1.size + c1 < WSIZE)
    (hx : M[v1.size - 1]? = some x) :
    Rep (emplace_back_n_notfull v1 c1) (M ++ List.replicate c1 x) ∧
      (emplace_back_n_notfull v1 c1).size = v1.size + c1 := by
  have hmod : (v1.size + c1) % WSIZE = v1.size + c1 := Nat.mod_eq_of_lt hw
  unfold emplace_back_n_notfull
  rw [hmod]
  by_cases hg : v1.size + c1 > v1.capacity
  · rw [if_pos hg]
    have hr : Rep (v1.reallocate (v1.best_capacity (v1.size + c1))) M :=
      reallocate_rep h
    have hsz2 : (v1.reallocate (v1.best_capacity (v1.size + c1))).size = v1.size :=
      reallocate_size
    have hcap2 : (v1.reallocate (v1.best_capacity (v1.size + c1))).capacity
        = max (v1.best_capacity (v1.size + c1)) v1.capacity := reallocate_capacity
    have hbc : v1.size + c1 ≤ v1.best_capacity (v1.size + c1) := by
      show v1.size + c1 ≤ max (v1.size + c1) v1.next_capacity0
      omega
    obtain ⟨ha, hb⟩ := @emplace_back_n_fill_rep α
      (v1.reallocate (v1.best_capacity (v1.size + c1))) M c1 x hr
      (by rw [hsz2]; omega) (by rw [hsz2, hcap2]; omega) (by rw [hsz2]; exact hx)
    exact ⟨ha, by rw [hb, hsz2]⟩
  · rw [if_neg hg]
    exact emplace_back_n_fill_rep h hone (by omega) hx

theorem emplace_back_n_internal_rep {simple : Bool} {v : Vec α} {L : List α}
    {count : Nat} {x : α} (h : Rep v L) (hc1 : 1 ≤ count)
    (hw : v.size + count < WSIZE) :
    Rep (v.emplace_back_n_internal simple count x) (L ++ List.replicate count x) ∧
      (v.emplace_back_n_internal simple count x).size = v.size + count := by
  have hszL : v.size = L.length := h.size_eq
  have hcd : v.capacity = v.data.length := rfl
  have hvc : v.size ≤ v.capacity := h.1
  have hWpos : 0 < WSIZE := by decide
  have hC1 : (count + (WSIZE - 1)) % WSIZE = count - 1 := by
    have h1 : count + (WSIZE - 1) = WSIZE + (count - 1) := by omega
    rw [h1, Nat.add_mod_left]
    exact Nat.mod_eq_of_lt (by omega)
  unfold emplace_back_n_internal
  by_cases hfull : v.size = v.capacity
  case neg =>
    rw [if_pos hfull, hC1]
    have hE : Rep (v.emplace_back_internal simple x) (L ++ [x]) :=
      emplace_back_internal_rep h
    have hEsz : (v.emplace_back_internal simple x).size = v.size + 1 :=
      emplace_back_internal_size
    have hx2 : (L ++ [x])[(v.emplace_back_internal simple x).size - 1]? = some x := by
      rw [hEsz]
      have h3 : v.size + 1 - 1 = L.length := by omega
      rw [h3, List.getElem?_append_right (by omega)]
      simp
    obtain ⟨ha, hb⟩ := @emplace_back_n_notfull_rep α (v.emplace_back_internal simple x)
      (L ++ [x]) (count - 1) x hE (by rw [hEsz]; omega) (by rw [hEsz]; omega) hx2
    have hlist : (L ++ [x]) ++ List.replicate (count - 1) x
        = L ++ List.replicate count x := by
      have h5 : List.replicate count x = x :: List.replicate (count - 1) x := by
        cases count with
        | zero => omega
        | succ m => simp [List.replicate_succ]
      rw [List.append_assoc, h5, List.singleton_append]
    refine ⟨?_, ?_⟩
    · rw [← hlist]
      exact ha
    · rw [hb, hEsz]
      omega
  case pos =>
    rw [if_neg (by simp [hfull])]
    by_cases hs : simple
    · rw [if_pos hs, Nat.mod_eq_of_lt hw]
      have hr : Rep (v.reallocate (v.best_capacity (v.size + count))) L :=
        reallocate_rep h
      have hsz2 : (v.reallocate (v.best_capacity (v.size + count))).size = v.size :=
        reallocate_size
      have hcap2 : (v.reallocate (v.best_capacity (v.size + count))).capacity
          = max (v.best_capacity (v.size + count)) v.capacity := reallocate_capacity
      have hbc : v.size + count ≤ v.best_capacity (v.size + count) := by
        show v.size + count ≤ max (v.size + count) v.next_capacity0
        omega
      obtain ⟨ha, hb⟩ := @emplace_back_n_fill2_rep α
        (v.reallocate (v.best_capacity (v.size + count))) L count x hr
        (by rw [hsz2, hcap2]; omega)
      exact ⟨ha, by rw [hb, hsz2]⟩
    · rw [if_neg hs, Nat.mod_eq_of_lt hw, hC1]
      have hB : v.size + count ≤ v.best_capacity (v.size + count) := by
        show v.size + count ≤ max (v.size + count) v.next_capacity0
        omega
      have hAlen : ((allocate α (v.best_capacity (v.size + count))).set
          v.size (some x)).length = v.best_capacity (v.size + count) := by
        rw [List.length_set]
        simp [allocate]
      have hAread : ∀ j, read ((allocate α (v.best_capacity (v.size + count))).set
          v.size (some x)) j = (if j = v.size then some x else none) := by
        intro j
        by_cases h1 : j = v.size
        · subst h1
          rw [if_pos rfl, read_set_self _ (by simp [allocate]; omega)]
        · rw [if_neg h1, read_set_ne _ (by omega), read_allocate]
      have hexr : read ((allocate α (v.best_capacity (v.size + count))).set
          v.size (some x)) v.size = some x := by
        rw [hAread, if_pos rfl]
      have hNDlen : (construct_n ((allocate α (v.best_capacity (v.size + count))).set
            v.size (some x)) (v.size + 1) (count - 1)
            (read ((allocate α (v.best_capacity (v.size + count))).set
              v.size (some x)) v.size)).length
          = v.best_capacity (v.size + count) := by
        rw [construct_n_length, hAlen]
      have hNDread : ∀ j, read (construct_n
            ((allocate α (v.best_capacity (v.size + count))).set v.size (some x))
            (v.size + 1) (count - 1)
            (read ((allocate α (v.best_capacity (v.size + count))).set
              v.size (some x)) v.size)) j =
          (if v.size ≤ j ∧ j < v.size + count then some x else none) := by
        intro j
        rw [construct_n_read (by rw [hAlen]; omega) j, hexr]
        by_cases h1 : v.size + 1 ≤ j ∧ j < v.size + 1 + (count - 1)
        · rw [if_pos h1, if_pos (by omega)]
        · rw [if_neg h1, hAread]
          by_cases h2 : j = v.size
          · rw [if_pos h2, if_pos (by omega)]
          · rw [if_neg h2, if_neg (by omega)]
      refine ⟨Rep.of_read ?_ ?_ ?_, ?_⟩
      · show v.size + 1 + (count - 1) ≤
          (blit (construct_n ((allocate α (v.best_capacity (v.size + count))).set
            v.size (some x)) (v.size + 1) (count - 1)
            (read ((allocate α (v.best_capacity (v.size + count))).set
              v.size (some x)) v.size)) 0 v.data 0 v.size).fst.length
        rw [blit_length, hNDlen]
        omega
      · show v.size + 1 + (count - 1) = (L ++ List.replicate count x).length
        simp only [List.length_append, List.length_replicate]
        omega
      · intro j hj
        have hj' : j < v.size + 1 + (count - 1) := hj
        show read (blit (construct_n ((allocate α (v.best_capacity (v.size + count))).set
            v.size (some x)) (v.size + 1) (count - 1)
            (read ((allocate α (v.best_capacity (v.size + count))).set
              v.size (some x)) v.size)) 0 v.data 0 v.size).fst j
          = (L ++ List.replicate count x)[j]?
        rw [blit_read (by rw [hNDlen]; omega), getElem?_append_replicate]
        by_cases h1 : j < v.size
        · rw [if_pos (show 0 ≤ j ∧ j < 0 + (v.size - 0) by omega),
            if_pos (show j < L.length by omega)]
          rw [show 0 + (j - 0) = j by omega]
          exact h.read_eq j h1
        · rw [if_neg (show ¬(0 ≤ j ∧ j < 0 + (v.size - 0)) by omega), hNDread,
            if_pos (show v.size ≤ j ∧ j < v.size + count by omega),
            if_neg (show ¬(j < L.length) by omega),
            if_pos (show j < L.length + count by omega)]
      · show v.size + 1 + (count - 1) = v.size + count
        omega

theorem emplace_n_internal_rep {simple : Bool} {v : Vec α} {L : List α}
    {pos count : Nat} {x : α} (h : Rep v L) (hpos : pos ≤ v.size)
    (hc1 : 1 ≤ count) (hw : v.size + count < WSIZE) :
    Rep (v.emplace_n_internal simple pos count x)
        (L.take pos ++ List.replicate count x ++ L.drop pos) ∧
      (v.emplace_n_internal simple pos count x).size = v.size + count := by
  have hszL : v.size = L.length := h.size_eq
  have hcd : v.capacity = v.data.length := rfl
  have hvc : v.size ≤ v.capacity := h.1
  have hWpos : 0 < WSIZE := by decide
  have hC1 : (count + (WSIZE - 1)) % WSIZE = count - 1 := by
    have h1 : count + (WSIZE - 1) = WSIZE + (count - 1) := by omega
    rw [h1, Nat.add_mod_left]
    exact Nat.mod_eq_of_lt (by omega)
  have hMlen : (L.take pos ++ List.replicate count x ++ L.drop pos).length
      = v.size + count := by
    simp only [List.length_append, List.length_take, List.length_replicate,
      List.length_drop]
    omega
  have hM : ∀ j, (L.take pos ++ List.replicate count x ++ L.drop pos)[j]? =
      (if j < pos then L[j]? else if j < pos + count then some x
        else L[j - count]?) := by
    intro j
    rw [getElem?_splice (show pos ≤ L.length by omega)]
    simp only [List.length_replicate]
    by_cases h1 : j < pos
    · rw [if_pos h1, if_pos h1]
    · rw [if_neg h1, if_neg h1]
      by_cases h2 : j < pos + count
      · rw [if_pos h2, if_pos h2, List.getElem?_replicate,
          if_pos (show j - pos < count by omega)]
      · rw [if_neg h2, if_neg h2]
  unfold emplace_n_internal
  by_cases hbr : simple = true ∨ (v.size + count) % WSIZE ≤ v.capacity
  · rw [if_pos hbr]
    obtain ⟨hg1, hg2, hg3, hg4, hg5⟩ := make_gap_n_spec hpos hc1
    have hgcap : v.size + count ≤ (v.make_gap_n pos count).fst.capacity := by
      rw [hg3]
      by_cases hh : v.size + count > v.capacity
      · rw [if_pos hh]
        exact le_next_capacity _
      · rw [if_neg hh]
        omega
    have hglen : (v.make_gap_n pos count).fst.data.length
        = (v.make_gap_n pos count).fst.capacity := rfl
    rw [hg1]
    refine ⟨Rep.of_read ?_ ?_ ?_, ?_⟩
    · show (v.make_gap_n pos count).fst.size ≤
        (construct_n (v.make_gap_n pos count).fst.data pos count (some x)).length
      rw [construct_n_length, hg2]
      omega
    · show (v.make_gap_n pos count).fst.size = _
      rw [hg2, hMlen]
    · intro j hj
      have hj' : j < (v.make_gap_n pos count).fst.size := hj
      rw [hg2] at hj'
      show read (construct_n (v.make_gap_n pos count).fst.data pos count (some x)) j
        = _
      rw [construct_n_read (by rw [hglen]; omega) j, hM j]
      by_cases h1 : j < pos
      · rw [if_neg (show ¬(pos ≤ j ∧ j < pos + count) by omega), if_pos h1,
          hg4 j h1]
        exact h.read_eq j (by omega)
      · by_cases h2 : j < pos + count
        · rw [if_pos (show pos ≤ j ∧ j < pos + count by omega), if_neg h1,
            if_pos h2]
        · rw [if_neg (show ¬(pos ≤ j ∧ j < pos + count) by omega), if_neg h1,
            if_neg h2, hg5 j (by omega) (by omega)]
          exact h.read_eq (j - count) (by omega)
    · show (v.make_gap_n pos count).fst.size = v.size + count
      exact hg2
  · rw [if_neg hbr]
    push_neg at hbr
    obtain ⟨hs, hcap⟩ := hbr
    rw [Nat.mod_eq_of_lt hw] at hcap
    rw [Nat.mod_eq_of_lt hw, hC1]
    have hB : v.size + count ≤ v.best_capacity (v.size + count) := by
      show v.size + count ≤ max (v.size + count) v.next_capacity0
      omega
    have hAlen : ((allocate α (v.best_capacity (v.size + count))).set
        pos (some x)).length = v.best_capacity (v.size + count) := by
      rw [List.length_set]
      simp [allocate]
    have hAread : ∀ j, read ((allocate α (v.best_capacity (v.size + count))).set
        pos (some x)) j = (if j = pos then some x else none) := by
      intro j
      by_cases h1 : j = pos
      · subst h1
        rw [if_pos rfl, read_set_self _ (by simp [allocate]; omega)]
      · rw [if_neg h1, read_set_ne _ (by omega), read_allocate]
    have hexr : read ((allocate α (v.best_capacity (v.size + count))).set
        pos (some x)) pos = some x := by
      rw [hAread, if_pos rfl]
    have hNDlen : (construct_n ((allocate α (v.best_capacity (v.size + count))).set
          pos (some x)) (pos + 1) (count - 1)
          (read ((allocate α (v.best_capacity (v.size + count))).set
            pos (some x)) pos)).length
        = v.best_capacity (v.size + count) := by
      rw [construct_n_length, hAlen]
    have hNDread : ∀ j, read (construct_n
          ((allocate α (v.best_capacity (v.size + count))).set pos (some x))
          (pos + 1) (count - 1)
          (read ((allocate α (v.best_capacity (v.size + count))).set
            pos (some x)) pos)) j =
        (if pos ≤ j ∧ j < pos + count then some x else none) := by
      intro j
      rw [construct_n_read (by rw [hAlen]; omega) j, hexr]
      by_cases h1 : pos + 1 ≤ j ∧ j < pos + 1 + (count - 1)
      · rw [if_pos h1, if_pos (by omega)]
      · rw [if_neg h1, hAread]
        by_cases h2 : j = pos
        · rw [if_pos h2, if_pos (by omega)]
        · rw [if_neg h2, if_neg (by omega)]
    have hB1len : (blit (construct_n
          ((allocate α (v.best_capacity (v.size + count))).set pos (some x))
          (pos + 1) (count - 1)
          (read ((allocate α (v.best_capacity (v.size + count))).set
            pos (some x)) pos)) 0 v.data 0 pos).fst.length
        = v.best_capacity (v.size + count) := by
      rw [blit_length, hNDlen]
    have hB1read : ∀ j, read (blit (construct_n
          ((allocate α (v.best_capacity (v.size + count))).set pos (some x))
          (pos + 1) (count - 1)
          (read ((allocate α (v.best_capacity (v.size + count))).set
            pos (some x)) pos)) 0 v.data 0 pos).fst j =
        (if j < pos then read v.data j
          else if pos ≤ j ∧ j < pos + count then some x else none) := by
      intro j
      rw [blit_read (by rw [hNDlen]; omega)]
      by_cases h1 : j < pos
      · rw [if_pos (show 0 ≤ j ∧ j < 0 + (pos - 0) by omega), if_pos h1,
          show 0 + (j - 0) = j by omega]
      · rw [if_neg (show ¬(0 ≤ j ∧ j < 0 + (pos - 0)) by omega), if_neg h1,
          hNDread j]
    refine ⟨Rep.of_read ?_ ?_ ?_, ?_⟩
    · show (blit (blit (construct_n ((allocate α
          (v.best_capacity (v.size + count))).set pos (some x)) (pos + 1) (count - 1)
          (read ((allocate α (v.best_capacity (v.size + count))).set
            pos (some x)) pos)) 0 v.data 0 pos).fst
          (pos + count) v.data pos v.size).snd ≤
        (blit (blit (construct_n ((allocate α
          (v.best_capacity (v.size + count))).set pos (some x)) (pos + 1) (count - 1)
          (read ((allocate α (v.best_capacity (v.size + count))).set
            pos (some x)) pos)) 0 v.data 0 pos).fst
          (pos + count) v.data pos v.size).fst.length
      rw [blit_snd, blit_length, hB1len]
      omega
    · show (blit (blit (construct_n ((allocate α
          (v.best_capacity (v.size + count))).set pos (some x)) (pos + 1) (count - 1)
          (read ((allocate α (v.best_capacity (v.size + count))).set
            pos (some x)) pos)) 0 v.data 0 pos).fst
          (pos + count) v.data pos v.size).snd = _
      rw [blit_snd, hMlen]
      omega
    · intro j hj
      have hj' : j < (blit (blit (construct_n ((allocate α
          (v.best_capacity (v.size + count))).set pos (some x)) (pos + 1) (count - 1)
          (read ((allocate α (v.best_capacity (v.size + count))).set
            pos (some x)) pos)) 0 v.data 0 pos).fst
          (pos + count) v.data pos v.size).snd := hj
      rw [blit_snd] at hj'
      show read (blit (blit (construct_n ((allocate α
          (v.best_capacity (v.size + count))).set pos (some x)) (pos + 1) (count - 1)
          (read ((allocate α (v.best_capacity (v.size + count))).set
            pos (some x)) pos)) 0 v.data 0 pos).fst
          (pos + count) v.data pos v.size).fst j = _
      rw [blit_read (by rw [hB1len]; omega), hM j]
      by_cases h1 : j < pos
      · rw [if_neg (show ¬(pos + count ≤ j ∧
            j < pos + count + (v.size - pos)) by omega), hB1read, if_pos h1,
          if_pos h1]
        exact h.read_eq j (by omega)
      · by_cases h2 : j < pos + count
        · rw [if_neg (show ¬(pos + count ≤ j ∧
              j < pos + count + (v.size - pos)) by omega), hB1read, if_neg h1,
            if_pos (show pos ≤ j ∧ j < pos + count by omega),
            if_neg (show ¬(j < pos) by omega), if_pos h2]
        · rw [if_pos (show pos + count ≤ j ∧
              j < pos + count + (v.size - pos) by omega),
            if_neg (show ¬(j < pos) by omega), if_neg h2]
          rw [show pos + (j - (pos + count)) = j - count by omega]
          exact h.read_eq (j - count) (by omega)
    · show (blit (blit (construct_n ((allocate α
          (v.best_capacity (v.size + count))).set pos (some x)) (pos + 1) (count - 1)
          (read ((allocate α (v.best_capacity (v.size + count))).set
            pos (some x)) pos)) 0 v.data 0 pos).fst
          (pos + count) v.data pos v.size).snd = v.size + count
      rw [blit_snd]
      omega

theorem insert_n_rep {simple : Bool} {v : Vec α} {L : List α} {pos count : Nat}
    {x : α} (h : Rep v L) (hpos : pos ≤ v.size) (hc1 : 1 ≤ count)
    (hw : v.size + count < WSIZE) :
    Rep (v.insert_n simple pos count x)
        (L.take pos ++ List.replicate count x ++ L.drop pos) ∧
      (v.insert_n simple pos count x).size = v.size + count := by
  have hszL : v.size = L.length := h.size_eq
  unfold insert_n
  by_cases hend : pos = v.size
  · rw [if_pos hend]
    have hlist : L.take pos ++ List.replicate count x ++ L.drop pos
        = L ++ List.replicate count x := by
      subst hend
      rw [hszL, List.take_length, List.drop_length, List.append_nil]
    rw [hlist]
    exact emplace_back_n_internal_rep h hc1 hw
  · rw [if_neg hend]
    exact emplace_n_internal_rep h hpos hc1 hw

theorem truncate_internal_rep {v : Vec α} {L : List α} {m : Nat}
    (h : Rep v L) (hm : m ≤ v.size) :
    Rep (v.truncate_internal m) (L.take m) := by
  have hszL : v.size = L.length := h.size_eq
  have hvc : v.size ≤ v.capacity := h.1
  refine Rep.of_read ?_ ?_ ?_
  · show m ≤ v.capacity
    omega
  · show m = (L.take m).length
    simp only [List.length_take]
    omega
  · intro j hj
    have hj' : j < m := hj
    show read v.data j = (L.take m)[j]?
    rw [List.getElem?_take, if_pos hj']
    exact h.read_eq j (by omega)

theorem pop_back_rep {v : Vec α} {L : List α} (h : Rep v L) :
    Rep v.pop_back (L.take (L.length - 1)) := by
  have hszL : v.size = L.length := h.size_eq
  unfold pop_back
  by_cases he : v.empty = true
  · rw [if_pos he]
    have h0 : v.size = 0 := by simpa [empty] using he
    have hL : L = [] := List.eq_nil_of_length_eq_zero (by omega)
    subst hL
    simpa using h
  · rw [if_neg he]
    rw [← hszL]
    exact truncate_internal_rep h (by omega)

theorem clear_rep {v : Vec α} {L : List α} (h : Rep v L) : Rep v.clear [] := by
  have h1 := truncate_internal_rep h (Nat.zero_le _)
  simpa [clear] using h1

end Vec

/-- Every reachable state represents the element sequence the operations
built: simulation of the operation sequence by the list semantics. -/
theorem ReachableRep.rep {v : Vec α} {L : List α} (h : ReachableRep v L) :
    Rep v L := by
  induction h with
  | nil => exact ⟨Nat.le_refl 0, rfl⟩
  | push_back x h ih => exact Vec.emplace_back_internal_rep ih
  | pop_back h ih => exact Vec.pop_back_rep ih
  | clear h ih => exact Vec.clear_rep ih
  | reserve n h ih => exact Vec.reallocate_rep ih
  | erase f l h hf hl ih => exact Vec.erase_rep ih hf hl
  | insert_ref pos i h hx hpos ih =>
    exact (insert_ref_rep true _ _ pos i _ ih hx hpos).1
  | insert_list pos s h hpos ih => exact Vec.insert_list_rep ih hpos
  | insert_n pos count x h hpos hc hw ih =>
    exact (Vec.insert_n_rep ih hpos hc hw).1
  | replace f l s h hf hl ih => exact Vec.replace_rep ih hf hl

namespace Vec

theorem two_le_next_capacity (n : Nat) : 2 ≤ next_capacity n := by
  unfold next_capacity
  by_cases h : n ≠ 0
  · rw [if_pos h]
    omega
  · rw [if_neg h]

theorem grow_whileGo_init_le {s fuel c : Nat} : c ≤ grow_whileGo s fuel c := by
  induction fuel generalizing c with
  | zero => exact Nat.le_refl c
  | succ fuel ih =>
    rw [grow_whileGo]
    by_cases h : c < s
    · rw [if_pos h]
      exact Nat.le_trans (le_next_capacity c) ih
    · rw [if_neg h]

theorem grow_whileGo_ge {s fuel c : Nat} (hc : 1 ≤ c) (hfuel : s ≤ c + fuel) :
    s ≤ grow_whileGo s fuel c := by
  induction fuel generalizing c with
  | zero =>
    rw [grow_whileGo]
    omega
  | succ fuel ih =>
    rw [grow_whileGo]
    by_cases h : c < s
    · rw [if_pos h]
      have h2 : c + 1 ≤ next_capacity c := by
        unfold next_capacity
        rw [if_pos (by omega)]
        omega
      exact ih (by omega) (by omega)
    · rw [if_neg h]
      omega

theorem grow_whileGo_of_ge {s fuel c : Nat} (h : s ≤ c) :
    grow_whileGo s fuel c = c := by
  cases fuel with
  | zero => rfl
  | succ fuel =>
    rw [grow_whileGo, if_neg (by omega)]

theorem grow_do_ge {c s : Nat} : s ≤ grow_do c s := by
  refine grow_whileGo_ge ?_ ?_
  · have := two_le_next_capacity c
    omega
  · omega

theorem two_le_grow_do {c s : Nat} : 2 ≤ grow_do c s :=
  Nat.le_trans (two_le_next_capacity c) grow_whileGo_init_le

theorem hk1_le {c1 i : Nat} {xs : List α} : hk1 c1 i xs ≤ xs.length :=
  Nat.min_le_right _ _

theorem hk12_le {c1 i : Nat} {xs : List α} :
    hk1 c1 i xs + hk2 c1 i xs ≤ xs.length := by
  have e1 : hk1 c1 i xs = min (c1 - i) xs.length := rfl
  have e2 : hk2 c1 i xs = min i (xs.length - hk1 c1 i xs) := rfl
  omega

theorem hk1_add_le {c1 i : Nat} {xs : List α} (hi : i ≤ c1) :
    i + hk1 c1 i xs ≤ c1 := by
  have e1 : hk1 c1 i xs = min (c1 - i) xs.length := rfl
  omega

theorem hk2_le_i {c1 i : Nat} {xs : List α} : hk2 c1 i xs ≤ i :=
  Nat.min_le_left _ _

theorem hk1_full {c1 i : Nat} {xs : List α} (h : hk1 c1 i xs ≠ xs.length) :
    hk1 c1 i xs = c1 - i := by
  have e1 : hk1 c1 i xs = min (c1 - i) xs.length := rfl
  omega

theorem hk2_full {c1 i : Nat} {xs : List α}
    (h1 : hk1 c1 i xs ≠ xs.length)
    (h2 : hk1 c1 i xs + hk2 c1 i xs ≠ xs.length) : hk2 c1 i xs = i := by
  have e1 : hk1 c1 i xs = min (c1 - i) xs.length := rfl
  have e2 : hk2 c1 i xs = min i (xs.length - hk1 c1 i xs) := rfl
  omega

theorem hA1_length {c1 i : Nat} {xs : List α} : (hA1 c1 i xs).length = c1 := by
  unfold hA1
  rw [writeList_length]
  simp [allocate]

theorem take_hk1_length {c1 i : Nat} {xs : List α} :
    (xs.take (hk1 c1 i xs)).length = hk1 c1 i xs := by
  rw [List.length_take]
  exact Nat.min_eq_left hk1_le

theorem hA1_read {c1 i : Nat} {xs : List α} (hi : i ≤ c1) (j : Nat) :
    read (hA1 c1 i xs) j =
      (if i ≤ j ∧ j < i + hk1 c1 i xs then xs[j - i]? else none) := by
  unfold hA1
  have hb : i + (xs.take (hk1 c1 i xs)).length ≤ (allocate α c1).length := by
    rw [take_hk1_length]
    have h1 : i + hk1 c1 i xs ≤ c1 := hk1_add_le hi
    simp [allocate]
    omega
  rw [writeList_read hb, take_hk1_length]
  by_cases h1 : i ≤ j ∧ j < i + hk1 c1 i xs
  · rw [if_pos h1, if_pos h1, List.getElem?_take, if_pos (by omega)]
  · rw [if_neg h1, if_neg h1, read_allocate]

theorem take_hk2_length {c1 i : Nat} {xs : List α} :
    ((xs.drop (hk1 c1 i xs)).take (hk2 c1 i xs)).length = hk2 c1 i xs := by
  rw [List.length_take]
  refine Nat.min_eq_left ?_
  rw [List.length_drop]
  have h1 : hk1 c1 i xs + hk2 c1 i xs ≤ xs.length := hk12_le
  have h2 : hk1 c1 i xs ≤ xs.length := hk1_le
  omega

theorem hA2_length {c1 i : Nat} {xs : List α} : (hA2 c1 i xs).length = c1 := by
  unfold hA2
  rw [writeList_length, hA1_length]

theorem hA2_read {c1 i : Nat} {xs : List α} (hi : i ≤ c1) (j : Nat) :
    read (hA2 c1 i xs) j =
      (if j < hk2 c1 i xs then xs[hk1 c1 i xs + j]?
        else if i ≤ j ∧ j < i + hk1 c1 i xs then xs[j - i]? else none) := by
  unfold hA2
  have hb : 0 + ((xs.drop (hk1 c1 i xs)).take (hk2 c1 i xs)).length
      ≤ (hA1 c1 i xs).length := by
    rw [take_hk2_length, hA1_length]
    have h1 : hk2 c1 i xs ≤ i := hk2_le_i
    omega
  rw [writeList_read hb, take_hk2_length]
  by_cases h1 : j < hk2 c1 i xs
  · rw [if_pos (show 0 ≤ j ∧ j < 0 + hk2 c1 i xs by omega), if_pos h1,
      List.getElem?_take, if_pos (by omega), List.getElem?_drop]
    rw [show j - 0 = j by omega]
  · rw [if_neg (show ¬(0 ≤ j ∧ j < 0 + hk2 c1 i xs) by omega), if_neg h1,
      hA1_read hi j]

theorem chainSpec_first {i s c1 : Nat} {xs : List α}
    (hi : i ≤ s) (hc1s : s ≤ c1) (hc2 : 1 ≤ c1)
    (h1 : hk1 c1 i xs = xs.length) :
    ChainSpec i s xs ⟨[], hA1 c1 i xs, i + hk1 c1 i xs, s + hk1 c1 i xs, c1⟩ := by
  have hic1 : i ≤ c1 := Nat.le_trans hi hc1s
  have hk1add : i + hk1 c1 i xs ≤ c1 := hk1_add_le hic1
  refine ⟨0, Nat.zero_le _, ?_, ?_, ?_, ?_, ?_, Or.inl ⟨?_, ?_, ?_⟩⟩
  · show s + hk1 c1 i xs = s + xs.length
    omega
  · show c1 = (hA1 c1 i xs).length
    rw [hA1_length]
  · show 1 ≤ c1
    omega
  · show s + 0 ≤ c1
    omega
  · show xs.take 0 = []
    exact List.take_zero xs
  · show i + hk1 c1 i xs = i + xs.length
    omega
  · show i + xs.length ≤ c1
    omega
  · intro j hj1 hj2
    have hj1' : i + 0 ≤ j := hj1
    have hj2' : j < i + xs.length := hj2
    show read (hA1 c1 i xs) j = _
    rw [hA1_read hic1 j,
      if_pos (show i ≤ j ∧ j < i + hk1 c1 i xs by omega)]
    rw [show 0 + (j - (i + 0)) = j - i by omega]

theorem chainSpec_second {i s c1 : Nat} {xs : List α}
    (hi : i ≤ s) (hc1s : s ≤ c1) (hc2 : 1 ≤ c1)
    (h1 : hk1 c1 i xs ≠ xs.length)
    (h2 : hk1 c1 i xs + hk2 c1 i xs = xs.length) :
    ChainSpec i s xs ⟨[], hA2 c1 i xs, hk2 c1 i xs,
      s + hk1 c1 i xs + hk2 c1 i xs, c1⟩ := by
  have hic1 : i ≤ c1 := Nat.le_trans hi hc1s
  have hk1add : i + hk1 c1 i xs ≤ c1 := hk1_add_le hic1
  have hk1f : hk1 c1 i xs = c1 - i := hk1_full h1
  have hk1le : hk1 c1 i xs ≤ xs.length := hk1_le
  have hk2i : hk2 c1 i xs ≤ i := hk2_le_i
  refine ⟨0, Nat.zero_le _, ?_, ?_, ?_, ?_, ?_,
    Or.inr ⟨?_, ?_, ?_, ?_, ?_, ?_, ?_⟩⟩
  · show s + hk1 c1 i xs + hk2 c1 i xs = s + xs.length
    omega
  · show c1 = (hA2 c1 i xs).length
    rw [hA2_length]
  · show 1 ≤ c1
    omega
  · show s + 0 ≤ c1
    omega
  · show xs.take 0 = []
    exact List.take_zero xs
  · show c1 < s + hk1 c1 i xs + hk2 c1 i xs
    omega
  · show c1 - (i + 0) ≤ xs.length - 0
    omega
  · show i + 0 ≤ c1
    omega
  · show hk2 c1 i xs = xs.length - 0 - (c1 - (i + 0))
    omega
  · show hk2 c1 i xs ≤ i + 0
    omega
  · intro j hj1 hj2
    have hj1' : i + 0 ≤ j := hj1
    have hj2' : j < c1 := hj2
    show read (hA2 c1 i xs) j = _
    rw [hA2_read hic1 j,
      if_neg (show ¬(j < hk2 c1 i xs) by omega),
      if_pos (show i ≤ j ∧ j < i + hk1 c1 i xs by omega)]
    rw [show 0 + (j - (i + 0)) = j - i by omega]
  · intro j hj
    have hj' : j < hk2 c1 i xs := hj
    show read (hA2 c1 i xs) j = _
    rw [hA2_read hic1 j, if_pos hj']
    rw [show 0 + (c1 - (i + 0)) + j = hk1 c1 i xs + j by omega]

theorem chainSpec_cons {i s c1 : Nat} {xs : List α} {r : HorribleChain α}
    (hi : i ≤ s) (hc1s : s ≤ c1) (hc2 : 1 ≤ c1)
    (h1 : hk1 c1 i xs ≠ xs.length)
    (h2 : hk1 c1 i xs + hk2 c1 i xs ≠ xs.length)
    (hrec : ChainSpec (i + hk1 c1 i xs + hk2 c1 i xs)
      (s + hk1 c1 i xs + hk2 c1 i xs) (xs.drop (hk1 c1 i xs + hk2 c1 i xs)) r) :
    ChainSpec i s xs ⟨hA2 c1 i xs :: r.arrs, r.lastA, r.lastIns, r.sF, r.cF⟩ := by
  have hic1 : i ≤ c1 := Nat.le_trans hi hc1s
  have hk1f : hk1 c1 i xs = c1 - i := hk1_full h1
  have hk2f : hk2 c1 i xs = i := hk2_full h1 h2
  have hk12le : hk1 c1 i xs + hk2 c1 i xs ≤ xs.length := hk12_le
  have hsum : hk1 c1 i xs + hk2 c1 i xs = c1 := by omega
  have hlt : c1 < xs.length := by omega
  obtain ⟨D2, hD1, hD2, hD3, hD4, hD5, hD6, hD7⟩ := hrec
  have hdl : (xs.drop c1).length = xs.length - c1 := List.length_drop c1 xs
  rw [List.length_drop, hsum] at hD1
  rw [hsum] at hD6 hD7
  rw [show i + hk1 c1 i xs + hk2 c1 i xs = i + c1 by omega] at hD6 hD7
  rw [List.length_drop, hsum] at hD2
  refine ⟨c1 + D2, by omega, ?_, ?_, ?_, ?_, ?_, ?_⟩
  · show r.sF = s + xs.length
    omega
  · show r.cF = r.lastA.length
    exact hD3
  · show 1 ≤ r.cF
    exact hD4
  · show s + (c1 + D2) ≤ r.cF
    omega
  · show ArrsSpec (hA2 c1 i xs :: r.arrs) i (xs.take (c1 + D2))
    refine ⟨?_, ?_, ?_, ?_⟩
    · rw [hA2_length]
      omega
    · rw [hA2_length, List.length_take]
      omega
    · intro j hj
      rw [hA2_length] at hj
      rw [hA2_read hic1 j]
      by_cases hc : i ≤ j
      · rw [if_neg (show ¬(j < hk2 c1 i xs) by omega),
          if_pos (show i ≤ j ∧ j < i + hk1 c1 i xs by omega),
          if_pos hc, List.getElem?_take, if_pos (by omega)]
      · rw [if_pos (show j < hk2 c1 i xs by omega), if_neg hc,
          List.getElem?_take, if_pos (by rw [hA2_length]; omega), hA2_length]
        rw [show c1 - i + j = hk1 c1 i xs + j by omega]
    · rw [hA2_length, List.drop_take,
        show c1 + D2 - c1 = D2 by omega]
      exact hD6
  · rcases hD7 with ⟨hL1, hL2, hL3⟩ | ⟨hR1, hR2, hR3, hR4, hR5, hR6, hR7⟩
    · refine Or.inl ⟨?_, ?_, ?_⟩
      · show r.lastIns = i + xs.length
        omega
      · show i + xs.length ≤ r.cF
        omega
      · intro j hj1 hj2
        have hj1' : i + (c1 + D2) ≤ j := hj1
        have hj2' : j < i + xs.length := hj2
        show read r.lastA j = _
        have h9 := hL3 j (by omega) (by omega)
        rw [List.getElem?_drop] at h9
        rw [show c1 + D2 + (j - (i + (c1 + D2)))
            = c1 + (D2 + (j - (i + c1 + D2))) by omega]
        exact h9
    · refine Or.inr ⟨?_, ?_, ?_, ?_, ?_, ?_, ?_⟩
      · show r.cF < r.sF
        exact hR1
      · show r.cF - (i + (c1 + D2)) ≤ xs.length - (c1 + D2)
        rw [show i + (c1 + D2) = i + c1 + D2 by omega]
        omega
      · show i + (c1 + D2) ≤ r.cF
        rw [show i + (c1 + D2) = i + c1 + D2 by omega]
        omega
      · show r.lastIns = xs.length - (c1 + D2) - (r.cF - (i + (c1 + D2)))
        rw [show i + (c1 + D2) = i + c1 + D2 by omega]
        omega
      · show r.lastIns ≤ i + (c1 + D2)
        rw [show i + (c1 + D2) = i + c1 + D2 by omega]
        omega
      · intro j hj1 hj2
        have hj1' : i + (c1 + D2) ≤ j := hj1
        have hj2' : j < r.cF := hj2
        show read r.lastA j = _
        have h9 := hR6 j (by omega) hj2'
        rw [List.getElem?_drop] at h9
        rw [show c1 + D2 + (j - (i + (c1 + D2)))
            = c1 + (D2 + (j - (i + c1 + D2))) by omega]
        exact h9
      · intro j hj
        have hj' : j < r.lastIns := hj
        show read r.lastA j = _
        have h9 := hR7 j hj'
        rw [List.getElem?_drop] at h9
        rw [show c1 + D2 + (r.cF - (i + (c1 + D2))) + j
            = c1 + (D2 + (r.cF - (i + c1 + D2)) + j) by omega]
        exact h9

theorem hchainGo_spec {fuel c s i : Nat} {xs : List α}
    (hfuel : xs.length < fuel) (hi : i ≤ s) :
    ChainSpec i s xs (hchainGo fuel c s i xs) := by
  induction fuel generalizing c s i xs with
  | zero => omega
  | succ fuel ih =>
    rw [hchainGo]
    have hc1s : s ≤ grow_do c s := grow_do_ge
    have hc2 : 2 ≤ grow_do c s := two_le_grow_do
    by_cases h1 : hk1 (grow_do c s) i xs = xs.length
    · rw [if_pos h1]
      exact chainSpec_first hi hc1s (by omega) h1
    · rw [if_neg h1]
      have hxs1 : 1 ≤ xs.length := by
        by_contra hcon
        have e1 : hk1 (grow_do c s) i xs = min (grow_do c s - i) xs.length := rfl
        omega
      by_cases h2 : hk1 (grow_do c s) i xs + hk2 (grow_do c s) i xs = xs.length
      · rw [if_pos h2]
        exact chainSpec_second hi hc1s (by omega) h1 h2
      · rw [if_neg h2]
        have hk1f : hk1 (grow_do c s) i xs = grow_do c s - i := hk1_full h1
        have hk2f : hk2 (grow_do c s) i xs = i := hk2_full h1 h2
        have hic1 : i ≤ grow_do c s := Nat.le_trans hi hc1s
        have hk12le : hk1 (grow_do c s) i xs + hk2 (grow_do c s) i xs
            ≤ xs.length := hk12_le
        refine chainSpec_cons hi hc1s (by omega) h1 h2 (ih ?_ ?_)
        · rw [List.length_drop]
          omega
        · omega

theorem hcombine_spec {arrs : List (Slots α)} {F : Slots α} {cIdx : Nat}
    {ys : List α} (hspec : ArrsSpec arrs cIdx ys)
    (hF : cIdx + ys.length ≤ F.length) :
    (hcombine arrs F cIdx).snd = cIdx + ys.length ∧
    (hcombine arrs F cIdx).fst.length = F.length ∧
    (∀ j, read (hcombine arrs F cIdx).fst j =
      (if cIdx ≤ j ∧ j < cIdx + ys.length then ys[j - cIdx]? else read F j)) := by
  induction arrs generalizing F cIdx ys with
  | nil =>
    obtain rfl : ys = [] := hspec
    refine ⟨by simp [hcombine], by rw [hcombine], ?_⟩
    intro j
    rw [hcombine, if_neg (by simp)]
  | cons A rest ih =>
    obtain ⟨hbase, hAy, hAread, hrest⟩ := hspec
    rw [hcombine]
    have hF1len : (blit F cIdx A cIdx A.length).fst.length = F.length :=
      blit_length
    have hF2len : (blit (blit F cIdx A cIdx A.length).fst
        (cIdx + (A.length - cIdx)) A 0 cIdx).fst.length = F.length := by
      rw [blit_length, hF1len]
    have hdy : (ys.drop A.length).length = ys.length - A.length :=
      List.length_drop A.length ys
    have hrec := ih hrest (by rw [hF2len]; omega)
    have hF2read : ∀ j, read (blit (blit F cIdx A cIdx A.length).fst
        (cIdx + (A.length - cIdx)) A 0 cIdx).fst j =
        (if cIdx ≤ j ∧ j < cIdx + A.length then ys[j - cIdx]? else read F j) := by
      intro j
      rw [blit_read (by rw [hF1len]; omega)]
      by_cases hj1 : cIdx + (A.length - cIdx) ≤ j ∧
          j < cIdx + (A.length - cIdx) + (cIdx - 0)
      · rw [if_pos hj1, if_pos (by omega)]
        have h9 := hAread (0 + (j - (cIdx + (A.length - cIdx))))
          (by omega)
        rw [h9, if_neg (by omega)]
        rw [show A.length - cIdx + (0 + (j - (cIdx + (A.length - cIdx))))
            = j - cIdx by omega]
      · rw [if_neg hj1, blit_read (by omega)]
        by_cases hj2 : cIdx ≤ j ∧ j < cIdx + (A.length - cIdx)
        · rw [if_pos hj2, if_pos (by omega)]
          have h9 := hAread (cIdx + (j - cIdx)) (by omega)
          rw [h9, if_pos (by omega)]
          rw [show cIdx + (j - cIdx) - cIdx = j - cIdx by omega]
        · rw [if_neg hj2, if_neg (by omega)]
    obtain ⟨hr1, hr2, hr3⟩ := hrec
    refine ⟨?_, ?_, ?_⟩
    · rw [hr1, hdy]
      omega
    · rw [hr2, hF2len]
    · intro j
      rw [hr3 j]
      by_cases hj1 : cIdx + A.length ≤ j ∧ j < cIdx + A.length
          + (ys.drop A.length).length
      · rw [if_pos hj1, if_pos (by omega), List.getElem?_drop]
        rw [show A.length + (j - (cIdx + A.length)) = j - cIdx by omega]
      · rw [if_neg hj1, hF2read j]
        by_cases hj2 : cIdx ≤ j ∧ j < cIdx + A.length
        · rw [if_pos hj2, if_pos (by omega)]
        · rw [if_neg hj2, if_neg (by omega)]

theorem insert_horrible_spec {index oldSize oldCapacity : Nat} {xs : List α}
    (hi : index ≤ oldSize) :
    (insert_horrible index oldSize oldCapacity xs).snd.fst
        = index + xs.length ∧
      (insert_horrible index oldSize oldCapacity xs).fst.length
        = (insert_horrible index oldSize oldCapacity xs).snd.snd ∧
      oldSize + xs.length ≤ (insert_horrible index oldSize oldCapacity xs).snd.snd ∧
      (∀ j, index ≤ j → j < index + xs.length →
        read (insert_horrible index oldSize oldCapacity xs).fst j
          = xs[j - index]?) := by
  have hchain : ChainSpec index oldSize xs
      (hchainGo (xs.length + 1) oldCapacity oldSize index xs) :=
    hchainGo_spec (by omega) hi
  unfold insert_horrible
  set r := hchainGo (xs.length + 1) oldCapacity oldSize index xs with hrdef
  obtain ⟨D, hD1, hsF, hcFlen, hcF1, hscF, hArrs, hlast⟩ := hchain
  have htk : (xs.take D).length = D := by
    rw [List.length_take]
    omega
  unfold insert_horrible_post
  by_cases hbad : r.cF < r.sF
  · rw [if_pos hbad]
    unfold insert_horrible_bad hcombineF
    have hCFge : r.sF ≤ grow_whileGo r.sF r.sF r.cF :=
      grow_whileGo_ge (by omega) (by omega)
    have halen : (allocate α (grow_whileGo r.sF r.sF r.cF)).length
        = grow_whileGo r.sF r.sF r.cF := by
      simp [allocate]
    obtain ⟨hc1, hc2, hc3⟩ := hcombine_spec hArrs
      (show index + (xs.take D).length
          ≤ (allocate α (grow_whileGo r.sF r.sF r.cF)).length by
        rw [htk, halen]
        omega)
    rw [htk] at hc1 hc3
    rw [hc1, ← hcFlen]
    rcases hlast with ⟨hL1, hL2, hL3⟩ | ⟨hR1, hR2, hR3, hR4, hR5, hR6, hR7⟩
    · have hDlt : D < xs.length := by omega
      rw [if_neg (by omega)]
      refine ⟨?_, ?_, ?_, ?_⟩
      · show index + D + (r.lastIns - (index + D)) = index + xs.length
        omega
      · show (blit _ (index + D) r.lastA (index + D) r.lastIns).fst.length = _
        rw [blit_length, hc2, halen]
      · show oldSize + xs.length ≤ grow_whileGo r.sF r.sF r.cF
        omega
      · intro j hj1 hj2
        rw [blit_read (by rw [hc2, halen]; omega)]
        by_cases hj3 : j < index + D
        · rw [if_neg (by omega), hc3 j, if_pos (by omega),
            List.getElem?_take, if_pos (by omega)]
        · rw [if_pos (by omega)]
          have h9 := hL3 j (by omega) (by omega)
          rw [show index + D + (j - (index + D)) = j by omega, h9,
            show D + (j - (index + D)) = j - index by omega]
    · rw [if_pos (by omega)]
      refine ⟨?_, ?_, ?_, ?_⟩
      · show index + D + (r.cF - (index + D)) + r.lastIns = index + xs.length
        omega
      · show (blit (blit _ (index + D) r.lastA (index + D) r.cF).fst
            (index + D + (r.cF - (index + D))) r.lastA 0 r.lastIns).fst.length = _
        rw [blit_length, blit_length, hc2, halen]
      · show oldSize + xs.length ≤ grow_whileGo r.sF r.sF r.cF
        omega
      · intro j hj1 hj2
        have hb2 : index + D + (r.cF - (index + D)) + (r.lastIns - 0)
            ≤ (blit (hcombine r.arrs (allocate α (grow_whileGo r.sF r.sF r.cF))
              index).fst (index + D) r.lastA (index + D) r.cF).fst.length := by
          rw [blit_length, hc2, halen]
          omega
        rw [blit_read hb2]
        by_cases hj3 : j < r.cF
        · rw [if_neg (by omega), blit_read (by rw [hc2, halen]; omega)]
          by_cases hj4 : j < index + D
          · rw [if_neg (by omega), hc3 j, if_pos (by omega),
              List.getElem?_take, if_pos (by omega)]
          · rw [if_pos (by omega)]
            have h9 := hR6 j (by omega) (by omega)
            rw [show index + D + (j - (index + D)) = j by omega, h9,
              show D + (j - (index + D)) = j - index by omega]
        · rw [if_pos (by omega)]
          have h9 := hR7 (j - (index + D + (r.cF - (index + D)))) (by omega)
          rw [show 0 + (j - (index + D + (r.cF - (index + D))))
              = j - (index + D + (r.cF - (index + D))) by omega, h9,
            show D + (r.cF - (index + D)) + (j - (index + D + (r.cF - (index + D))))
              = j - index by omega]
  · rw [if_neg hbad]
    have hnw : r.lastIns = index + xs.length ∧ index + xs.length ≤ r.cF ∧
        (∀ j, index + D ≤ j → j < index + xs.length →
          read r.lastA j = xs[D + (j - (index + D))]?) := by
      rcases hlast with h | h
      · exact h
      · exact absurd h.1 hbad
    obtain ⟨hL1, hL2, hL3⟩ := hnw
    obtain ⟨hc1, hc2, hc3⟩ := hcombine_spec hArrs
      (show index + (xs.take D).length ≤ r.lastA.length by
        rw [htk, ← hcFlen]
        omega)
    rw [htk] at hc1 hc3
    refine ⟨hL1, ?_, ?_, ?_⟩
    · show (hcombine r.arrs r.lastA index).fst.length = r.cF
      rw [hc2]
      exact hcFlen.symm
    · show oldSize + xs.length ≤ r.cF
      omega
    · intro j hj1 hj2
      rw [hc3 j]
      by_cases hj3 : j < index + D
      · rw [if_pos (by omega), List.getElem?_take, if_pos (by omega)]
      · rw [if_neg (by omega)]
        have h9 := hL3 j (by omega) hj2
        rw [h9, show D + (j - (index + D)) = j - index by omega]

theorem horrible_assemble_rep {v : Vec α} {L r1 r2 rest : List α} {pos : Nat}
    (h : Rep v L) (hpos : pos ≤ v.size) :
    Rep (v.horrible_assemble pos r1 r2 rest)
        (L.take pos ++ (r1 ++ r2 ++ rest) ++ L.drop pos) ∧
      (v.horrible_assemble pos r1 r2 rest).size
        = v.size + (r1.length + r2.length + rest.length) := by
  have hszL : v.size = L.length := h.size_eq
  have hcd : v.capacity = v.data.length := rfl
  obtain ⟨hH1, hH2, hH3, hH4⟩ := @insert_horrible_spec α
    (pos + r1.length + r2.length)
    (pos + r1.length + r2.length + (v.size - pos)) v.capacity rest (by omega)
  unfold horrible_assemble assemble2
  set H := insert_horrible (pos + r1.length + r2.length)
    (pos + r1.length + r2.length + (v.size - pos)) v.capacity rest with hHdef
  have hlen1 : (blit H.1 0 v.data 0 pos).fst.length = H.1.length := blit_length
  have hlen2 : (writeList (blit H.1 0 v.data 0 pos).fst pos r1).length
      = H.1.length := by
    rw [writeList_length, hlen1]
  have hlen3 : (writeList (writeList (blit H.1 0 v.data 0 pos).fst pos r1)
      (pos + r1.length) r2).length = H.1.length := by
    rw [writeList_length, hlen2]
  refine ⟨Rep.of_read ?_ ?_ ?_, ?_⟩
  · show H.2.1 + (v.size - pos) ≤ (blit _ H.2.1 v.data pos v.size).fst.length
    rw [blit_length, hlen3, hH2, hH1]
    omega
  · show H.2.1 + (v.size - pos) = _
    rw [hH1]
    simp only [List.length_append, List.length_take, List.length_drop]
    omega
  · intro j hj
    have hj' : j < H.2.1 + (v.size - pos) := hj
    rw [hH1] at hj'
    have hXlen : (r1 ++ r2 ++ rest).length
        = r1.length + r2.length + rest.length := by
      simp only [List.length_append]
    show read (blit (writeList (writeList (blit H.1 0 v.data 0 pos).fst pos r1)
        (pos + r1.length) r2) H.2.1 v.data pos v.size).fst j = _
    rw [blit_read (by rw [hlen3, hH2, hH1]; omega), hH1,
      getElem?_splice (show pos ≤ L.length by omega), hXlen]
    by_cases h1 : j < pos
    · rw [if_neg (show ¬(pos + r1.length + r2.length + rest.length ≤ j ∧
          j < pos + r1.length + r2.length + rest.length + (v.size - pos))
          by omega),
        writeList_read (by rw [hlen2, hH2]; omega),
        if_neg (show ¬(pos + r1.length ≤ j ∧ j < pos + r1.length + r2.length)
          by omega),
        writeList_read (by rw [hlen1, hH2]; omega),
        if_neg (show ¬(pos ≤ j ∧ j < pos + r1.length) by omega),
        blit_read (by rw [hH2]; omega),
        if_pos (show 0 ≤ j ∧ j < 0 + (pos - 0) by omega),
        show 0 + (j - 0) = j by omega,
        if_pos h1]
      exact h.read_eq j (by omega)
    · by_cases h2 : j < pos + r1.length
      · rw [if_neg (show ¬(pos + r1.length + r2.length + rest.length ≤ j ∧
            j < pos + r1.length + r2.length + rest.length + (v.size - pos))
            by omega),
          writeList_read (by rw [hlen2, hH2]; omega),
          if_neg (show ¬(pos + r1.length ≤ j ∧ j < pos + r1.length + r2.length)
            by omega),
          writeList_read (by rw [hlen1, hH2]; omega),
          if_pos (show pos ≤ j ∧ j < pos + r1.length by omega),
          if_neg h1, if_pos (show j < pos + (r1.length + r2.length + rest.length)
            by omega),
          getElem?_append3,
          if_pos (show j - pos < r1.length by omega)]
      · by_cases h3 : j < pos + r1.length + r2.length
        · rw [if_neg (show ¬(pos + r1.length + r2.length + rest.length ≤ j ∧
              j < pos + r1.length + r2.length + rest.length + (v.size - pos))
              by omega),
            writeList_read (by rw [hlen2, hH2]; omega),
            if_pos (show pos + r1.length ≤ j ∧ j < pos + r1.length + r2.length
              by omega),
            if_neg h1, if_pos (show j < pos + (r1.length + r2.length + rest.length)
              by omega),
            getElem?_append3,
            if_neg (show ¬(j - pos < r1.length) by omega),
            if_pos (show j - pos < r1.length + r2.length by omega),
            show j - pos - r1.length = j - (pos + r1.length) by omega]
        · by_cases h4 : j < pos + r1.length + r2.length + rest.length
          · rw [if_neg (show ¬(pos + r1.length + r2.length + rest.length ≤ j ∧
                j < pos + r1.length + r2.length + rest.length + (v.size - pos))
                by omega),
              writeList_read (by rw [hlen2, hH2]; omega),
              if_neg (show ¬(pos + r1.length ≤ j ∧
                j < pos + r1.length + r2.length) by omega),
              writeList_read (by rw [hlen1, hH2]; omega),
              if_neg (show ¬(pos ≤ j ∧ j < pos + r1.length) by omega),
              blit_read (by rw [hH2]; omega),
              if_neg (show ¬(0 ≤ j ∧ j < 0 + (pos - 0)) by omega),
              hH4 j (by omega) (by omega),
              if_neg h1, if_pos (show j < pos + (r1.length + r2.length + rest.length)
                by omega),
              getElem?_append3,
              if_neg (show ¬(j - pos < r1.length) by omega),
              if_neg (show ¬(j - pos < r1.length + r2.length) by omega),
              show j - pos - r1.length - r2.length
                = j - (pos + r1.length + r2.length) by omega]
          · rw [if_pos (show pos + r1.length + r2.length + rest.length ≤ j ∧
                j < pos + r1.length + r2.length + rest.length + (v.size - pos)
                by omega),
              if_neg h1,
              if_neg (show ¬(j < pos + (r1.length + r2.length + rest.length))
                by omega),
              show pos + (j - (pos + r1.length + r2.length + rest.length))
                = j - (r1.length + r2.length + rest.length) by omega]
            exact h.read_eq _ (by omega)
  · show H.2.1 + (v.size - pos) = _
    rw [hH1]
    omega

/-- Writing into the uninitialised slots at and beyond the live cursor
preserves the representation. -/
theorem fill_high_rep {v : Vec α} {L : List α} {hi2 : Nat} {ys : List α}
    (h : Rep v L) (hlo : v.size ≤ hi2) (hhi : hi2 ≤ v.capacity) :
    Rep (⟨(fill v.data v.size hi2 ys).fst, v.size⟩ : Vec α) L := by
  have hcd : v.capacity = v.data.length := rfl
  refine Rep.of_read ?_ h.size_eq ?_
  · show v.size ≤ (fill v.data v.size hi2 ys).fst.length
    rw [fill_length]
    have := h.1
    omega
  · intro j hj
    have hj' : j < v.size := hj
    show read (fill v.data v.size hi2 ys).fst j = L[j]?
    rw [fill_read hlo (by omega) j, if_neg (by omega)]
    exact h.read_eq j hj'

theorem insert_range_input_fb_rep {v : Vec α} {L xs : List α} {pos : Nat}
    (h : Rep v L) (hpos : pos ≤ v.size)
    (hsmall : v.size - pos < v.capacity - v.size)
    (hgt : v.tempCap pos < xs.length) :
    Rep (v.insert_range_input_fb pos xs) (L.take pos ++ xs ++ L.drop pos) ∧
      (v.insert_range_input_fb pos xs).size = v.size + xs.length := by
  have hszL : v.size = L.length := h.size_eq
  have hcd : v.capacity = v.data.length := rfl
  have hvc : v.size ≤ v.capacity := h.1
  have htc : v.tempCap pos = v.size - pos := by
    unfold tempCap
    rw [if_pos hsmall]
  have hlo : v.size ≤ v.capacity - (v.size - pos) := by omega
  have hdlen : (xs.drop (v.tempCap pos)).length = xs.length - v.tempCap pos :=
    List.length_drop _ _
  have htklen : (xs.take (v.tempCap pos)).length = v.tempCap pos := by
    rw [List.length_take]
    omega
  have hcur : (fill v.data v.size (v.capacity - (v.size - pos))
      (xs.drop (v.tempCap pos))).snd.fst
      = v.size + min (v.capacity - (v.size - pos) - v.size)
          (xs.drop (v.tempCap pos)).length := fill_cursor hlo
  have hrest : (fill v.data v.size (v.capacity - (v.size - pos))
      (xs.drop (v.tempCap pos))).snd.snd
      = (xs.drop (v.tempCap pos)).drop
          (min (v.capacity - (v.size - pos) - v.size)
            (xs.drop (v.tempCap pos)).length) := fill_rest hlo
  rw [hdlen] at hcur hrest
  have hcm : (fill v.data v.size (v.capacity - (v.size - pos))
      (xs.drop (v.tempCap pos))).snd.fst - v.size
      = min (v.capacity - (v.size - pos) - v.size)
          (xs.length - v.tempCap pos) := by
    rw [hcur]
    omega
  unfold insert_range_input_fb
  by_cases hav : (fill v.data v.size (v.capacity - (v.size - pos))
      (xs.drop (v.tempCap pos))).snd.snd.isEmpty = true
  · rw [if_pos hav]
    have hall : xs.length - v.tempCap pos
        ≤ v.capacity - (v.size - pos) - v.size := by
      rw [hrest] at hav
      have h5 := List.isEmpty_iff.mp hav
      have h6 := congrArg List.length h5
      simp only [List.length_drop, List.length_nil] at h6
      omega
    have hcur2 : (fill v.data v.size (v.capacity - (v.size - pos))
        (xs.drop (v.tempCap pos))).snd.fst
        = v.size + (xs.length - v.tempCap pos) := by
      rw [hcur]
      omega
    rw [hcur2]
    refine ⟨Rep.of_read ?_ ?_ ?_, ?_⟩
    · show v.size + (xs.length - v.tempCap pos) + (v.size - pos) ≤
        (writeList (blit _ (v.size + (xs.length - v.tempCap pos)) _ pos
          v.size).fst pos (xs.take (v.tempCap pos))).length
      rw [writeList_length, blit_length, fill_length]
      omega
    · show v.size + (xs.length - v.tempCap pos) + (v.size - pos) = _
      simp only [List.length_append, List.length_take, List.length_drop]
      omega
    · intro j hj
      have hj' : j < v.size + (xs.length - v.tempCap pos) + (v.size - pos) := hj
      show read (writeList (blit (fill v.data v.size (v.capacity - (v.size - pos))
          (xs.drop (v.tempCap pos))).fst (v.size + (xs.length - v.tempCap pos))
          (fill v.data v.size (v.capacity - (v.size - pos))
            (xs.drop (v.tempCap pos))).fst pos v.size).fst pos
          (xs.take (v.tempCap pos))) j = _
      rw [writeList_read (by rw [blit_length, fill_length, htklen]; omega),
        getElem?_splice (show pos ≤ L.length by omega)]
      by_cases h1 : j < pos
      · rw [if_neg (show ¬(pos ≤ j ∧
            j < pos + (xs.take (v.tempCap pos)).length) by omega),
          blit_read (by rw [fill_length]; omega),
          if_neg (show ¬(v.size + (xs.length - v.tempCap pos) ≤ j ∧
            j < v.size + (xs.length - v.tempCap pos) + (v.size - pos)) by omega),
          fill_read hlo (by omega) j,
          if_neg (show ¬(v.size ≤ j ∧ j < v.size +
            min (v.capacity - (v.size - pos) - v.size)
              (xs.drop (v.tempCap pos)).length) by rw [hdlen]; omega),
          if_pos h1]
        exact h.read_eq j (by omega)
      · by_cases h2 : j < v.size
        · rw [if_pos (show pos ≤ j ∧
              j < pos + (xs.take (v.tempCap pos)).length by rw [htklen]; omega),
            List.getElem?_take, if_pos (by omega),
            if_neg h1, if_pos (show j < pos + xs.length by omega)]
        · by_cases h3 : j < v.size + (xs.length - v.tempCap pos)
          · rw [if_neg (show ¬(pos ≤ j ∧
                j < pos + (xs.take (v.tempCap pos)).length) by rw [htklen]; omega),
              blit_read (by rw [fill_length]; omega),
              if_neg (show ¬(v.size + (xs.length - v.tempCap pos) ≤ j ∧
                j < v.size + (xs.length - v.tempCap pos) + (v.size - pos))
                by omega),
              fill_read hlo (by omega) j,
              if_pos (show v.size ≤ j ∧ j < v.size +
                min (v.capacity - (v.size - pos) - v.size)
                  (xs.drop (v.tempCap pos)).length by rw [hdlen]; omega),
              List.getElem?_drop,
              if_neg h1, if_pos (show j < pos + xs.length by omega),
              show v.tempCap pos + (j - v.size) = j - pos by omega]
          · rw [if_neg (show ¬(pos ≤ j ∧
                j < pos + (xs.take (v.tempCap pos)).length) by rw [htklen]; omega),
              blit_read (by rw [fill_length]; omega),
              if_pos (show v.size + (xs.length - v.tempCap pos) ≤ j ∧
                j < v.size + (xs.length - v.tempCap pos) + (v.size - pos)
                by omega),
              fill_read hlo (by omega) _,
              if_neg (show ¬(v.size ≤ pos + (j - (v.size +
                (xs.length - v.tempCap pos))) ∧ pos + (j - (v.size +
                (xs.length - v.tempCap pos))) < v.size +
                min (v.capacity - (v.size - pos) - v.size)
                  (xs.drop (v.tempCap pos)).length) by omega),
              if_neg h1,
              if_neg (show ¬(j < pos + xs.length) by omega),
              show pos + (j - (v.size + (xs.length - v.tempCap pos)))
                = j - xs.length by omega]
            exact h.read_eq _ (by omega)
    · show v.size + (xs.length - v.tempCap pos) + (v.size - pos)
        = v.size + xs.length
      omega
  · rw [if_neg hav, hcm, hrest]
    obtain ⟨ha, hb⟩ := @horrible_assemble_rep α
      ⟨(fill v.data v.size (v.capacity - (v.size - pos))
        (xs.drop (v.tempCap pos))).fst, v.size⟩ L
      (xs.take (v.tempCap pos))
      ((xs.drop (v.tempCap pos)).take
        (min (v.capacity - (v.size - pos) - v.size) (xs.length - v.tempCap pos)))
      ((xs.drop (v.tempCap pos)).drop
        (min (v.capacity - (v.size - pos) - v.size) (xs.length - v.tempCap pos)))
      pos (fill_high_rep h hlo (by omega)) hpos
    have e4 : xs.take (v.tempCap pos)
        ++ (xs.drop (v.tempCap pos)).take
            (min (v.capacity - (v.size - pos) - v.size)
              (xs.length - v.tempCap pos))
        ++ (xs.drop (v.tempCap pos)).drop
            (min (v.capacity - (v.size - pos) - v.size)
              (xs.length - v.tempCap pos))
        = xs := by
      rw [List.append_assoc, List.take_append_drop, List.take_append_drop]
    rw [e4] at ha
    refine ⟨ha, ?_⟩
    rw [hb]
    show v.size + _ = v.size + xs.length
    simp only [List.length_take, List.length_drop]
    omega

/-- The element-sequence effect of single-pass range insertion: the new
elements land between the old prefix and suffix, in input order. -/
theorem insert_range_input_rep {v : Vec α} {L xs : List α} {pos : Nat}
    (h : Rep v L) (hpos : pos ≤ v.size) :
    Rep (v.insert_range_input pos xs) (L.take pos ++ xs ++ L.drop pos) ∧
      (v.insert_range_input pos xs).size = v.size + xs.length := by
  have hszL : v.size = L.length := h.size_eq
  unfold insert_range_input
  by_cases hemp : xs.isEmpty = true
  · rw [if_pos hemp]
    have hxs : xs = [] := List.isEmpty_iff.mp hemp
    subst hxs
    refine ⟨?_, by simp⟩
    rw [show L.take pos ++ ([] : List α) ++ L.drop pos = L by
      rw [List.append_nil, List.take_append_drop]]
    exact h
  · rw [if_neg hemp]
    by_cases hfull : v.size ≠ v.capacity
    · rw [if_pos hfull]
      unfold insert_range_input_notfull
      have htr : (fill (allocate α (v.tempCap pos)) 0 (v.tempCap pos) xs).snd.snd
          = xs.drop (min (v.tempCap pos - 0) xs.length) :=
        fill_rest (Nat.zero_le _)
      by_cases hbail : (fill (allocate α (v.tempCap pos)) 0 (v.tempCap pos)
          xs).snd.snd.isEmpty = true
      · rw [if_pos hbail]
        have hr : Rep (v.insert_range_fwd pos xs)
            (L.take pos ++ xs ++ L.drop pos) := insert_range_fwd_rep h hpos
        refine ⟨hr, ?_⟩
        have hs := hr.size_eq
        rw [hs]
        simp only [List.length_append, List.length_take, List.length_drop]
        omega
      · rw [if_neg hbail]
        have hgt : v.tempCap pos < xs.length := by
          rw [htr] at hbail
          by_contra hcon
          have h5 : min (v.tempCap pos - 0) xs.length = xs.length := by omega
          rw [h5, List.drop_length] at hbail
          simp at hbail
        by_cases hsmall : v.size - pos < v.capacity - v.size
        · rw [if_pos hsmall]
          exact insert_range_input_fb_rep h hpos hsmall hgt
        · rw [if_neg hsmall]
          obtain ⟨ha, hb⟩ := @horrible_assemble_rep α v L
            (xs.take (v.tempCap pos)) [] (xs.drop (v.tempCap pos)) pos h hpos
          rw [show xs.take (v.tempCap pos) ++ ([] : List α)
              ++ xs.drop (v.tempCap pos) = xs by
            rw [List.append_nil, List.take_append_drop]] at ha
          refine ⟨ha, ?_⟩
          rw [hb]
          simp only [List.length_take, List.length_drop, List.length_nil]
          omega
    · rw [if_neg hfull]
      obtain ⟨ha, hb⟩ := @horrible_assemble_rep α v L [] [] xs pos h hpos
      rw [show ([] : List α) ++ ([] : List α) ++ xs = xs from rfl] at ha
      refine ⟨ha, ?_⟩
      rw [hb]
      simp only [List.length_nil]
      omega

end Vec

/-- C1: for every vector whose element sequence is P ++ S and every
single-pass (input-iterator-only) source sequence xs, inserting at the
position between P and S consuming xs leaves the element sequence exactly
P ++ xs ++ S, the elements of xs in their input order, with size
|P| + |xs| + |S|. -/
theorem c1_input_iterator_insert (v : Vec α) (P S xs : List α)
    (h : Rep v (P ++ S)) :
    Rep (v.insert_range_input P.length xs) (P ++ xs ++ S) ∧
      (v.insert_range_input P.length xs).size
        = P.length + xs.length + S.length := by
  have hsz := h.size_eq
  rw [List.length_append] at hsz
  have hpos : P.length ≤ v.size := by omega
  obtain ⟨ha, hb⟩ := Vec.insert_range_input_rep h hpos
  rw [List.take_left' rfl, List.drop_left' rfl] at ha
  exact ⟨ha, by rw [hb]; omega⟩

/-- Witness for C1: inserting the single-pass sequence [8, 9] into the full
vector [1, 2, 3] before its second element yields [1, 8, 9, 2, 3] with size
5 (this run goes through insert_horrible, the vector being full). -/
theorem c1_input_iterator_insert_witness :
    Rep ((mkVec ([1,2,3] : List Nat) 0).insert_range_input 1 [8,9])
        ([1] ++ [8,9] ++ [2,3]) ∧
      ((mkVec ([1,2,3] : List Nat) 0).insert_range_input 1 [8,9]).size
        = 1 + 2 + 2 :=
  c1_input_iterator_insert (mkVec ([1,2,3] : List Nat) 0) [1] [2,3] [8,9]
    (mkVec_rep [1,2,3] 0)

/-- C8: in every state reachable by a sequence of public operations starting
from a newly constructed vector, 0 ≤ size() ≤ capacity() holds, empty()
returns true exactly when size() = 0, and full() returns true exactly when
size() = capacity(). -/
theorem c8_reachable_invariant (v : Vec α) (h : Reachable v) :
    0 ≤ v.size ∧ v.size ≤ v.capacity ∧
      (v.empty = true ↔ v.size = 0) ∧ (v.full = true ↔ v.size = v.capacity) := by
  obtain ⟨L, hr⟩ := h
  refine ⟨Nat.zero_le _, hr.rep.1, ?_, ?_⟩
  · simp [Vec.empty]
  · simp [Vec.full]

/-- Witness for C8: the state reached from the fresh vector by push_back(5)
satisfies the invariant. -/
theorem c8_reachable_invariant_witness :
    0 ≤ ((⟨[], 0⟩ : Vec Nat).push_back true 5).size ∧
      ((⟨[], 0⟩ : Vec Nat).push_back true 5).size ≤
        ((⟨[], 0⟩ : Vec Nat).push_back true 5).capacity ∧
      (((⟨[], 0⟩ : Vec Nat).push_back true 5).empty = true ↔
        ((⟨[], 0⟩ : Vec Nat).push_back true 5).size = 0) ∧
      (((⟨[], 0⟩ : Vec Nat).push_back true 5).full = true ↔
        ((⟨[], 0⟩ : Vec Nat).push_back true 5).size =
          ((⟨[], 0⟩ : Vec Nat).push_back true 5).capacity) :=
  c8_reachable_invariant ((⟨[], 0⟩ : Vec Nat).push_back true 5)
    ⟨[5], ReachableRep.push_back 5 ReachableRep.nil⟩

end KaneVector
